import Mathlib

/-!
Verification of the dreamwatcher change-detection engine.

This file shallowly embeds the Python modules under src/dreamwatcher
(state.py, snapshot.py, watcher.py, discord.py) as executable Lean
definitions and proves or refutes the frozen specification claims.

Modelling conventions:
* Python dict is modelled as an insertion-ordered association list
  (List (String × V)); dict.get is List.lookup.
* Python str is String; character classification (whitespace, word chars)
  is modelled on the ASCII range, with characters above 127 treated as
  word characters and non-space (the wiki content the watcher handles);
* machine-level floats appear only in the similarity threshold, which is
  modelled as an exact rational given by a numerator/denominator pair;
* hashlib.md5 is implemented bit-faithfully on Nat with explicit mod 2^32;
* I/O (HTTP fetches, file reads) is modelled by passing the fetched or
  parsed values as explicit inputs.
-/

/-- Python code-point lexicographic strict order on strings
(the order used by sorted() on str values). -/
def pyStrLtL : List Char → List Char → Bool
  | _, [] => false
  | [], _ :: _ => true
  | a :: as, b :: bs =>
    if a.toNat < b.toNat then true
    else if b.toNat < a.toNat then false
    else pyStrLtL as bs

/-- Python string strict order, on String. -/
def pyStrLt (a b : String) : Bool := pyStrLtL a.data b.data

/-- Python string non-strict order (a less-or-equal b). -/
def pyStrLe (a b : String) : Bool := !(pyStrLt b a)

/-- Whitespace in the sense of Python str.strip / re \s (ASCII part plus
the common Unicode space code points). -/
def isPySpace (c : Char) : Bool :=
  let n := c.toNat
  (9 ≤ n && n ≤ 13) || n = 32 || (28 ≤ n && n ≤ 31) || n = 133 || n = 160 ||
  n = 0x1680 || (0x2000 ≤ n && n ≤ 0x200a) || n = 0x2028 || n = 0x2029 ||
  n = 0x202f || n = 0x205f || n = 0x3000

/-- Word characters in the sense of re \w: ASCII alphanumerics and the
underscore; code points above 127 (e.g. CJK letters) are treated as word
characters, which is how they behave in the wiki content handled here. -/
def isPyWord (c : Char) : Bool :=
  let n := c.toNat
  (48 ≤ n && n ≤ 57) || (65 ≤ n && n ≤ 90) || (97 ≤ n && n ≤ 122) ||
  n = 95 || n > 127

/-- Python str.lstrip() on a character list. -/
def pyLstrip (l : List Char) : List Char := l.dropWhile isPySpace

/-- Python str.rstrip() on a character list. -/
def pyRstrip (l : List Char) : List Char := (pyLstrip l.reverse).reverse

/-- Python str.strip() on a character list. -/
def pyStripL (l : List Char) : List Char := pyRstrip (pyLstrip l)

/-- Python str.strip() on String. -/
def pyStrip (s : String) : String := String.mk (pyStripL s.data)

/-- Does the character list start with the given prefix? -/
def startsWithL (l p : List Char) : Bool := l.take p.length == p

/-- Python str.splitlines() line-break characters (\\n \\r \\v \\f and the
Unicode breaks; the \\r\\n pair is handled in pySplitlinesGo). -/
def isLineBreak (c : Char) : Bool :=
  let n := c.toNat
  n = 10 || n = 13 || n = 11 || n = 12 || n = 28 || n = 29 || n = 30 ||
  n = 133 || n = 0x2028 || n = 0x2029

/-- Worker for Python str.splitlines(): cur is the (reversed) current line. -/
def pySplitlinesGo : List Char → List Char → List String
  | [], [] => []
  | [], cur => [String.mk cur.reverse]
  | '\r' :: '\n' :: rest2, cur => String.mk cur.reverse :: pySplitlinesGo rest2 []
  | '\r' :: rest, cur => String.mk cur.reverse :: pySplitlinesGo rest []
  | c :: rest, cur =>
    if isLineBreak c then String.mk cur.reverse :: pySplitlinesGo rest []
    else pySplitlinesGo rest (c :: cur)

/-- Python str.splitlines(). -/
def pySplitlines (s : String) : List String := pySplitlinesGo s.data []

/-- Worker for Python str.split(sep) with a single-character separator. -/
def pySplitCharGo (sep : Char) : List Char → List Char → List String
  | [], cur => [String.mk cur.reverse]
  | c :: rest, cur =>
    if c = sep then String.mk cur.reverse :: pySplitCharGo sep rest []
    else pySplitCharGo sep rest (c :: cur)

/-- Python str.split(sep) for a one-character separator (never empty). -/
def pySplitChar (sep : Char) (s : String) : List String :=
  pySplitCharGo sep s.data []

/-- Python sep.join(items). -/
def pyJoin (sep : String) (items : List String) : String :=
  String.intercalate sep items

/-! ## MD5 (hashlib.md5(...).hexdigest()), bit-faithful on Nat -/

/-- UTF-8 encoding of one character as a byte list (str.encode()). -/
def utf8Bytes (c : Char) : List Nat :=
  let v := c.toNat
  if v < 0x80 then [v]
  else if v < 0x800 then
    [0xC0 ||| (v >>> 6), 0x80 ||| (v &&& 0x3F)]
  else if v < 0x10000 then
    [0xE0 ||| (v >>> 12), 0x80 ||| ((v >>> 6) &&& 0x3F), 0x80 ||| (v &&& 0x3F)]
  else
    [0xF0 ||| (v >>> 18), 0x80 ||| ((v >>> 12) &&& 0x3F),
     0x80 ||| ((v >>> 6) &&& 0x3F), 0x80 ||| (v &&& 0x3F)]

/-- UTF-8 encoding of a string as a byte list. -/
def utf8Encode (s : String) : List Nat := s.data.flatMap utf8Bytes

/-- MD5 per-round shift amounts. -/
def md5_s : List Nat :=
  [7, 12, 17, 22, 7, 12, 17, 22, 7, 12, 17, 22, 7, 12, 17, 22,
   5, 9, 14, 20, 5, 9, 14, 20, 5, 9, 14, 20, 5, 9, 14, 20,
   4, 11, 16, 23, 4, 11, 16, 23, 4, 11, 16, 23, 4, 11, 16, 23,
   6, 10, 15, 21, 6, 10, 15, 21, 6, 10, 15, 21, 6, 10, 15, 21]

/-- MD5 per-round additive constants (floor(2^32 * abs(sin(i+1)))). -/
def md5_K : List Nat :=
  [0xd76aa478, 0xe8c7b756, 0x242070db, 0xc1bdceee,
   0xf57c0faf, 0x4787c62a, 0xa8304613, 0xfd469501,
   0x698098d8, 0x8b44f7af, 0xffff5bb1, 0x895cd7be,
   0x6b901122, 0xfd987193, 0xa679438e, 0x49b40821,
   0xf61e2562, 0xc040b340, 0x265e5a51, 0xe9b6c7aa,
   0xd62f105d, 0x02441453, 0xd8a1e681, 0xe7d3fbc8,
   0x21e1cde6, 0xc33707d6, 0xf4d50d87, 0x455a14ed,
   0xa9e3e905, 0xfcefa3f8, 0x676f02d9, 0x8d2a4c8a,
   0xfffa3942, 0x8771f681, 0x6d9d6122, 0xfde5380c,
   0xa4beea44, 0x4bdecfa9, 0xf6bb4b60, 0xbebfbc70,
   0x289b7ec6, 0xeaa127fa, 0xd4ef3085, 0x04881d05,
   0xd9d4d039, 0xe6db99e5, 0x1fa27cf8, 0xc4ac5665,
   0xf4292244, 0x432aff97, 0xab9423a7, 0xfc93a039,
   0x655b59c3, 0x8f0ccc92, 0xffeff47d, 0x85845dd1,
   0x6fa87e4f, 0xfe2ce6e0, 0xa3014314, 0x4e0811a1,
   0xf7537e82, 0xbd3af235, 0x2ad7d2bb, 0xeb86d391]

/-- Truncation to a 32-bit word. -/
def w32 (n : Nat) : Nat := n % 4294967296

/-- Bitwise complement inside 32 bits. -/
def not32 (n : Nat) : Nat := Nat.xor (w32 n) 4294967295

/-- Left-rotation of a 32-bit word. -/
def rotl32 (x s : Nat) : Nat :=
  w32 ((x <<< s) ||| (x >>> (32 - s)))

/-- MD5 padding: 0x80, zeros to 56 mod 64, then the bit length in 8
little-endian bytes. -/
def md5Pad (msg : List Nat) : List Nat :=
  let len := msg.length
  let padLen := (55 + 64 - len % 64) % 64 + 1
  let bitLen := (8 * len) % (2 ^ 64)
  msg ++ (0x80 :: List.replicate (padLen - 1) 0) ++
    (List.range 8).map (fun i => (bitLen >>> (8 * i)) % 256)

/-- Little-endian 32-bit words of one 64-byte chunk. -/
def md5Words (chunk : List Nat) : List Nat :=
  (List.range 16).map (fun j =>
    chunk.getD (4 * j) 0 + (chunk.getD (4 * j + 1) 0) * 256 +
    (chunk.getD (4 * j + 2) 0) * 65536 + (chunk.getD (4 * j + 3) 0) * 16777216)

/-- One MD5 round: state is (A, B, C, D), i the round index. -/
def md5Round (M : List Nat) (st : Nat × Nat × Nat × Nat) (i : Nat) :
    Nat × Nat × Nat × Nat :=
  let (A, B, C, D) := st
  let F :=
    if i < 16 then (B &&& C) ||| (not32 B &&& D)
    else if i < 32 then (D &&& B) ||| (not32 D &&& C)
    else if i < 48 then Nat.xor (Nat.xor B C) D
    else Nat.xor C (B ||| not32 D)
  let g :=
    if i < 16 then i
    else if i < 32 then (5 * i + 1) % 16
    else if i < 48 then (3 * i + 5) % 16
    else (7 * i) % 16
  let F2 := w32 (F + A + md5_K.getD i 0 + M.getD g 0)
  (D, w32 (B + rotl32 F2 (md5_s.getD i 0)), B, C)

/-- Process one 64-byte chunk into the running digest state. -/
def md5Chunk (st : Nat × Nat × Nat × Nat) (chunk : List Nat) :
    Nat × Nat × Nat × Nat :=
  let (a0, b0, c0, d0) := st
  let M := md5Words chunk
  let (A, B, C, D) := (List.range 64).foldl (md5Round M) (a0, b0, c0, d0)
  (w32 (a0 + A), w32 (b0 + B), w32 (c0 + C), w32 (d0 + D))

/-- Worker for md5Chunks; the fuel argument (an upper bound on the number
of chunks) only drives structural recursion. -/
def md5ChunksGo : Nat → List Nat → List (List Nat)
  | _, [] => []
  | 0, _ => []
  | fuel + 1, c :: rest =>
    (c :: rest).take 64 :: md5ChunksGo fuel ((c :: rest).drop 64)

/-- Split a padded message into 64-byte chunks. -/
def md5Chunks (l : List Nat) : List (List Nat) := md5ChunksGo l.length l

/-- Lowercase hex digit (0-15 to 0-9a-f). -/
def hexDigit (n : Nat) : Char :=
  "0123456789abcdef".data.getD n 'x'

/-- Little-endian lowercase hex of a 32-bit word (8 digits). -/
def hexWordLE (x : Nat) : List Char :=
  (List.range 4).flatMap (fun i =>
    let byte := (x >>> (8 * i)) % 256
    [hexDigit (byte / 16), hexDigit (byte % 16)])

/-- MD5 hex digest of a byte list. -/
def md5HexBytes (msg : List Nat) : String :=
  let st := (md5Chunks (md5Pad msg)).foldl md5Chunk
    (0x67452301, 0xefcdab89, 0x98badcfe, 0x10325476)
  let (a, b, c, d) := st
  String.mk (hexWordLE a ++ hexWordLE b ++ hexWordLE c ++ hexWordLE d)

/-- hashlib.md5(content.encode()).hexdigest(). -/
def md5Hex (s : String) : String := md5HexBytes (utf8Encode s)

/-! ## state.py: State, get_content_hash, has_page_content_changed -/

/-- In-memory watcher state.  state.py declares seen, updated_at and
content_hashes; the richer deployment mode used by watcher.py (its state
module is not under src/) additionally carries dynamic_monitored_pages,
a set modelled as a list of page names. -/
structure State where
  seen : List (String × String)
  updated_at : Option String
  content_hashes : List (String × String)
  dynamic_monitored_pages : List String := []
deriving Repr, DecidableEq

/-- get_content_hash from state.py: None for falsy content, else the MD5
hex digest of the UTF-8 encoded content. -/
def get_content_hash (content : Option String) : Option String :=
  match content with
  | none => none
  | some s => if s = "" then none else some (md5Hex s)

/-- has_page_content_changed from state.py. -/
def has_page_content_changed (page_name : String)
    (current_content : Option String) (state : State) : Bool :=
  match current_content with
  | none => false
  | some s =>
    if s = "" then false
    else
      let page_key := "content_" ++ page_name
      let current_hash := get_content_hash (some s)
      match state.content_hashes.lookup page_key with
      | none => true
      | some stored => decide (some stored ≠ current_hash)

/-! ## Claim C10: has_page_content_changed characterization -/

/-- C10: has_page_content_changed returns False whenever the current
content is None or the empty string, even if a stored hash exists and
differs; for non-empty content it returns True exactly when the key
content_<page_name> is absent from the state's content hashes or its
stored value differs from the MD5 hex digest of the content. -/
theorem has_page_content_changed_spec (page_name : String)
    (content : Option String) (state : State) :
    has_page_content_changed page_name none state = false ∧
    has_page_content_changed page_name (some "") state = false ∧
    (has_page_content_changed page_name content state = true ↔
      ∃ s, content = some s ∧ s ≠ "" ∧
        (state.content_hashes.lookup ("content_" ++ page_name) = none ∨
         ∃ h, state.content_hashes.lookup ("content_" ++ page_name) = some h ∧
           h ≠ md5Hex s)) := by
  refine ⟨rfl, by simp [has_page_content_changed], ?_⟩
  match content with
  | none => simp [has_page_content_changed]
  | some s =>
    by_cases hs : s = ""
    · subst hs
      simp [has_page_content_changed]
    · simp only [has_page_content_changed, get_content_hash, if_neg hs]
      match hlk : state.content_hashes.lookup ("content_" ++ page_name) with
      | none => simp [hs]
      | some stored =>
        simp only [decide_eq_true_eq, ne_eq, Option.some.injEq]
        constructor
        · intro hne
          exact ⟨s, rfl, hs, Or.inr ⟨stored, rfl, fun h => hne (by simp [h])⟩⟩
        · rintro ⟨t, ht, -, hcase⟩
          cases ht
          rcases hcase with h | ⟨h2, hh2, hne⟩
          · exact absurd h (by simp)
          · cases hh2
            intro heq
            exact hne heq

/-! ## state.py / snapshot.py loaders (C3): permissive reads -/

/-- Parsed JSON documents (what json.loads returns on success).  Numbers
are modelled as integers; their value is never inspected by the loaders. -/
inductive Json where
  | null
  | bool (b : Bool)
  | num (n : Int)
  | str (s : String)
  | arr (items : List Json)
  | obj (fields : List (String × Json))

/-- Outcome of reading and json.loads-ing a file, as seen by the loader. -/
inductive FileRead where
  | missing
  | readError
  | parseError
  | parsed (j : Json)

/-- Python exceptions that escape the loaders (not caught by their
except clauses, which catch only OSError, ValueError, JSONDecodeError). -/
inductive PyExc where
  | attributeError
  | keyError (key : String)
  | typeError
deriving Repr, DecidableEq

/-- The State dataclass as populated by load_state.  The parsed dict
values keep their JSON type: Python performs no element-level coercion,
so seen / content_hashes may hold non-string values. -/
structure LoadedState where
  seen : List (String × Json)
  updated_at : Option String
  content_hashes : List (String × Json)

/-- Zero-value state: State(seen=\x7b\x7d, updated_at=None, content_hashes=\x7b\x7d). -/
def zeroLoadedState : LoadedState :=
  { seen := [], updated_at := none, content_hashes := [] }

/-- load_state from state.py.  A missing file and any caught read/parse
error yield the zero-value State; a parsed document is consumed with
data.get(...), which on a non-dict raises AttributeError (json.loads
yields list/str/int/bool/None for non-object documents, none of which
has .get), escaping the except clause. -/
def load_state : FileRead → Except PyExc LoadedState
  | .missing => .ok zeroLoadedState
  | .readError => .ok zeroLoadedState
  | .parseError => .ok zeroLoadedState
  | .parsed (.obj fields) =>
    let seen := match (fields.lookup "seen").getD (.obj []) with
      | .obj o => o
      | _ => []
    let updated_at := match (fields.lookup "updated_at").getD .null with
      | .str s => some s
      | _ => none
    let content_hashes := match (fields.lookup "content_hashes").getD (.obj []) with
      | .obj o => o
      | _ => []
    .ok { seen := seen, updated_at := updated_at, content_hashes := content_hashes }
  | .parsed _ => .error .attributeError

/-- A page snapshot as populated by load_snapshots (PageSnapshot with the
parsed JSON values; diff uses .get and so may be absent). -/
structure LoadedSnapshot where
  page_name : Json
  content : Json
  timestamp : Json
  diff : Option Json

/-- Build one snapshot from one parsed entry, as load_snapshots does:
snapshot_data["page_name"] etc.; a missing key raises KeyError and a
non-dict entry raises TypeError, neither caught by the except clause. -/
def load_snapshot_entry : Json → Except PyExc LoadedSnapshot
  | .obj sf =>
    match sf.lookup "page_name" with
    | none => .error (.keyError "page_name")
    | some pn =>
      match sf.lookup "content" with
      | none => .error (.keyError "content")
      | some ct =>
        match sf.lookup "timestamp" with
        | none => .error (.keyError "timestamp")
        | some ts =>
          .ok { page_name := pn, content := ct, timestamp := ts,
                diff := sf.lookup "diff" }
  | _ => .error .typeError

/-- Worker folding load_snapshot_entry over the parsed object entries. -/
def load_snapshots_entries :
    List (String × Json) → Except PyExc (List (String × LoadedSnapshot))
  | [] => .ok []
  | (name, sj) :: rest =>
    match load_snapshot_entry sj with
    | .error e => .error e
    | .ok snap =>
      match load_snapshots_entries rest with
      | .error e => .error e
      | .ok done => .ok ((name, snap) :: done)

/-- load_snapshots from snapshot.py.  Missing file and caught read/parse
errors yield the empty map; a parsed non-object raises AttributeError
(no .items method); object entries are consumed by load_snapshot_entry. -/
def load_snapshots : FileRead → Except PyExc (List (String × LoadedSnapshot))
  | .missing => .ok []
  | .readError => .ok []
  | .parseError => .ok []
  | .parsed (.obj fields) => load_snapshots_entries fields
  | .parsed _ => .error .attributeError

/-- C3 counterexample: the claim says a read of content that is valid
JSON but not an object of the expected shape also yields the empty
defaults without raising; but load_state on the valid JSON document
lbrack rbrack (an array) raises AttributeError to the caller. -/
theorem load_state_C3_counterexample :
    load_state (.parsed (.arr [])) = .error .attributeError ∧
    load_snapshots (.parsed (.arr [])) = .error .attributeError := ⟨rfl, rfl⟩

/-- C3 amended: loading the persisted state (and snapshots) returns the
empty defaults on a missing file and on any caught read or JSON parse
error, and succeeds on any parsed JSON object (for snapshots: whose
entries are objects carrying the three required keys); however, content
that is valid JSON whose top level is not an object raises AttributeError
to the caller, so the never-raises guarantee does not extend to
arbitrary well-formed JSON. -/
theorem load_state_fail_soft :
    load_state .missing = .ok zeroLoadedState ∧
    load_state .readError = .ok zeroLoadedState ∧
    load_state .parseError = .ok zeroLoadedState ∧
    (∀ fields, ∃ st, load_state (.parsed (.obj fields)) = .ok st) ∧
    load_snapshots .missing = .ok [] ∧
    load_snapshots .readError = .ok [] ∧
    load_snapshots .parseError = .ok [] ∧
    (∀ items, load_state (.parsed (.arr items)) = .error .attributeError) ∧
    (∀ s, load_state (.parsed (.str s)) = .error .attributeError) ∧
    (∀ n, load_state (.parsed (.num n)) = .error .attributeError) ∧
    (∀ b, load_state (.parsed (.bool b)) = .error .attributeError) ∧
    load_state (.parsed .null) = .error .attributeError ∧
    (∀ items, load_snapshots (.parsed (.arr items)) = .error .attributeError) ∧
    (∀ s, load_snapshots (.parsed (.str s)) = .error .attributeError) := by
  refine ⟨rfl, rfl, rfl, fun fields => ⟨_, rfl⟩, rfl, rfl, rfl,
    fun _ => rfl, fun _ => rfl, fun _ => rfl, fun _ => rfl, rfl,
    fun _ => rfl, fun _ => rfl⟩

/-! ## Claim C4: durability of the dynamic monitored set (spec-modelled) -/

/-- Modelled from the spec: save_state of the richer deployment mode's
state module (the variant whose State carries dynamic_monitored_pages).
That module is not under src/: src/dreamwatcher/state.py has no such
field, while watcher.py reads state.dynamic_monitored_pages and
constructs State(..., dynamic_monitored_pages=...).  Per the spec the
persisted file is the JSON object
seen / updated_at / content_hashes / dynamic_monitored_pages. -/
def save_state_rich (st : State) : Json :=
  .obj [("seen", .obj (st.seen.map (fun kv => (kv.1, Json.str kv.2)))),
        ("updated_at",
          match st.updated_at with
          | none => Json.null
          | some s => Json.str s),
        ("content_hashes",
          .obj (st.content_hashes.map (fun kv => (kv.1, Json.str kv.2)))),
        ("dynamic_monitored_pages",
          .arr (st.dynamic_monitored_pages.map Json.str))]

/-- String pairs of a parsed JSON map (ill-typed values dropped). -/
def jsonStrPairs : List (String × Json) → List (String × String)
  | [] => []
  | (k, .str v) :: rest => (k, v) :: jsonStrPairs rest
  | _ :: rest => jsonStrPairs rest

/-- String elements of a parsed JSON array (ill-typed values dropped). -/
def jsonStrList : List Json → List String
  | [] => []
  | .str v :: rest => v :: jsonStrList rest
  | _ :: rest => jsonStrList rest

/-- Modelled from the spec: load_state of the richer deployment mode,
reading the four fields permissively (missing file or malformed content
yields the empty defaults). -/
def load_state_rich : FileRead → State
  | .parsed (.obj fields) =>
    { seen := match (fields.lookup "seen").getD (.obj []) with
        | .obj o => jsonStrPairs o
        | _ => []
      updated_at := match (fields.lookup "updated_at").getD .null with
        | .str s => some s
        | _ => none
      content_hashes := match (fields.lookup "content_hashes").getD (.obj []) with
        | .obj o => jsonStrPairs o
        | _ => []
      dynamic_monitored_pages :=
        match (fields.lookup "dynamic_monitored_pages").getD .null with
        | .arr xs => jsonStrList xs
        | _ => [] }
  | _ => { seen := [], updated_at := none, content_hashes := [],
           dynamic_monitored_pages := [] }

/-- Round-trip of the spec's string-list encoding. -/
theorem jsonStrList_map_str (l : List String) :
    jsonStrList (l.map Json.str) = l := by
  induction l with
  | nil => rfl
  | cons x xs ih => simpa [jsonStrList] using ih

/-- C4: the persisted representation written at cycle end contains the
dynamic_monitored_pages field, and saving a state then loading it back
yields the same set (indeed the same list) of dynamically monitored page
names.  Modelled from the spec because the richer state module is not
under src/. -/
theorem save_state_rich_roundtrip (st : State) :
    (match save_state_rich st with
      | .obj fields => fields.lookup "dynamic_monitored_pages"
      | _ => none) =
        some (.arr (st.dynamic_monitored_pages.map Json.str)) ∧
    (load_state_rich (.parsed (save_state_rich st))).dynamic_monitored_pages =
      st.dynamic_monitored_pages := by
  constructor
  · simp [save_state_rich, List.lookup]
  · simp [save_state_rich, load_state_rich, List.lookup,
      jsonStrList_map_str]

/-! ## difflib.SequenceMatcher with isjunk=None (the only form the
repository uses, via SequenceMatcher(None, a, b) and unified_diff) -/

section SequenceMatcher

variable {α : Type} [DecidableEq α]

/-- Append position j to the entry of x (b2j construction step). -/
def b2jAdd : List (α × List Nat) → α → Nat → List (α × List Nat)
  | [], x, j => [(x, [j])]
  | (y, js) :: rest, x, j =>
    if x = y then (y, js ++ [j]) :: rest
    else (y, js) :: b2jAdd rest x j

/-- Worker building the element-to-positions map of b. -/
def b2jBuild : List α → Nat → List (α × List Nat) → List (α × List Nat)
  | [], _, acc => acc
  | x :: rest, j, acc => b2jBuild rest (j + 1) (b2jAdd acc x j)

/-- The b2j map of difflib.SequenceMatcher.__chain_b for isjunk=None:
positions of each element of b, with the autojunk rule (for len(b) >=
200, elements occurring more than len(b)/100 + 1 times are dropped). -/
def b2j (b : List α) : List (α × List Nat) :=
  let raw := b2jBuild b 0 []
  let n := b.length
  if n ≥ 200 then
    let ntest := n / 100 + 1
    raw.filter (fun e => decide (e.2.length ≤ ntest))
  else raw

/-- Positions of x in the b2j map (b2j.get(x, nothing)). -/
def b2jGet : List (α × List Nat) → α → List Nat
  | [], _ => []
  | (y, js) :: rest, x => if x = y then js else b2jGet rest x

/-- Inner loop of find_longest_match over the candidate positions of
a[i] in b: newj2len[j] = j2len.get(j-1, 0) + 1, tracking the best block.
Positions below blo are skipped, and the scan breaks at the first
position at or beyond bhi (the list is ascending). -/
def flmInner (j2len : Nat → Nat) (i blo bhi : Nat) :
    List Nat → (Nat → Nat) → Nat × Nat × Nat → (Nat → Nat) × (Nat × Nat × Nat)
  | [], newj2len, best => (newj2len, best)
  | j :: js, newj2len, best =>
    if j < blo then flmInner j2len i blo bhi js newj2len best
    else if j ≥ bhi then (newj2len, best)
    else
      let k := (if j = 0 then 0 else j2len (j - 1)) + 1
      let newj2len2 : Nat → Nat := fun m => if m = j then k else newj2len m
      let best2 := if k > best.2.2 then (i + 1 - k, j + 1 - k, k) else best
      flmInner j2len i blo bhi js newj2len2 best2

/-- Outer loop of find_longest_match over i in range(alo, ahi). -/
def flmOuter (a : List α) (m : List (α × List Nat)) (blo bhi : Nat) :
    List Nat → (Nat → Nat) → Nat × Nat × Nat → Nat × Nat × Nat
  | [], _, best => best
  | i :: is, j2len, best =>
    let js := match a.get? i with
      | some x => b2jGet m x
      | none => []
    let (newj2len, best2) := flmInner j2len i blo bhi js (fun _ => 0) best
    flmOuter a m blo bhi is newj2len best2

/-- First extension loop: extend the best block leftwards over equal
elements (isbjunk is constantly false since isjunk is None, so the
not-isbjunk condition always holds and the later junk-extension loops
never run). -/
def extLeft (a b : List α) (alo blo : Nat) :
    Nat → Nat → Nat → Nat × Nat × Nat
  | 0, bestj, bestsize => (0, bestj, bestsize)
  | bi + 1, bestj, bestsize =>
    if bi + 1 > alo ∧ bestj > blo then
      match a.get? bi, b.get? (bestj - 1) with
      | some x, some y =>
        if x = y then extLeft a b alo blo bi (bestj - 1) (bestsize + 1)
        else (bi + 1, bestj, bestsize)
      | _, _ => (bi + 1, bestj, bestsize)
    else (bi + 1, bestj, bestsize)

/-- Second extension loop: extend the best block rightwards over equal
elements.  The fuel argument only drives structural recursion; ahi
bounds the number of iterations, so fuel = ahi at the call site never
runs out. -/
def extRight (a b : List α) (ahi bhi besti bestj : Nat) :
    Nat → Nat → Nat
  | 0, bestsize => bestsize
  | fuel + 1, bestsize =>
    if besti + bestsize < ahi ∧ bestj + bestsize < bhi then
      match a.get? (besti + bestsize), b.get? (bestj + bestsize) with
      | some x, some y =>
        if x = y then extRight a b ahi bhi besti bestj fuel (bestsize + 1)
        else bestsize
      | _, _ => bestsize
    else bestsize

/-- find_longest_match(alo, ahi, blo, bhi) of SequenceMatcher with
isjunk=None: the dynamic programme over b2j followed by the two
non-junk extension loops (the junk extension loops are no-ops). -/
def find_longest_match (a b : List α) (m : List (α × List Nat))
    (alo ahi blo bhi : Nat) : Nat × Nat × Nat :=
  let best := flmOuter a m blo bhi (List.range' alo (ahi - alo))
    (fun _ => 0) (alo, blo, 0)
  let (bi2, bj2, bs2) := extLeft a b alo blo best.1 best.2.1 best.2.2
  let bs3 := extRight a b ahi bhi bi2 bj2 ahi bs2
  (bi2, bj2, bs3)

/-- Recursive block collection of get_matching_blocks (difflib uses an
explicit queue; collecting the left part, the block, then the right
part yields the same multiset, which difflib sorts afterwards anyway).
The fuel argument only drives structural recursion; the measure
(ahi - alo) + (bhi - blo) strictly decreases at each recursive call, so
the initial fuel (that measure plus one) never runs out. -/
def matchingBlocksGo (a b : List α) (m : List (α × List Nat)) :
    Nat → Nat → Nat → Nat → Nat → List (Nat × Nat × Nat)
  | 0, _, _, _, _ => []
  | fuel + 1, alo, ahi, blo, bhi =>
    let (i, j, k) := find_longest_match a b m alo ahi blo bhi
    if k = 0 then []
    else
      (if alo < i ∧ blo < j then matchingBlocksGo a b m fuel alo i blo j
       else []) ++
      [(i, j, k)] ++
      (if i + k < ahi ∧ j + k < bhi then
        matchingBlocksGo a b m fuel (i + k) ahi (j + k) bhi
       else [])

/-- Lexicographic order on blocks (Python tuple sort). -/
def blockLe (x y : Nat × Nat × Nat) : Prop :=
  x.1 < y.1 ∨ (x.1 = y.1 ∧ (x.2.1 < y.2.1 ∨ (x.2.1 = y.2.1 ∧ x.2.2 ≤ y.2.2)))

instance : DecidableRel (blockLe) := by
  intro x y
  unfold blockLe
  infer_instance

/-- Merge adjacent blocks (the second phase of get_matching_blocks);
the first argument is the running (i1, j1, k1), initially (0, 0, 0). -/
def mergeAdjacentBlocks : Nat × Nat × Nat → List (Nat × Nat × Nat) →
    List (Nat × Nat × Nat)
  | (i1, j1, k1), [] => if k1 ≠ 0 then [(i1, j1, k1)] else []
  | (i1, j1, k1), (i2, j2, k2) :: rest =>
    if i1 + k1 = i2 ∧ j1 + k1 = j2 then
      mergeAdjacentBlocks (i1, j1, k1 + k2) rest
    else
      (if k1 ≠ 0 then [(i1, j1, k1)] else []) ++
        mergeAdjacentBlocks (i2, j2, k2) rest

/-- get_matching_blocks of SequenceMatcher: recursive longest-match
collection, sorted, adjacent blocks merged, plus the (la, lb, 0)
terminal block.  Python sorts with the stable timsort, modelled by the
stable insertion sort. -/
def get_matching_blocks (a b : List α) : List (Nat × Nat × Nat) :=
  let m := b2j b
  let la := a.length
  let lb := b.length
  let blocks := matchingBlocksGo a b m (la + lb + 1) 0 la 0 lb
  let sorted := List.insertionSort blockLe blocks
  mergeAdjacentBlocks (0, 0, 0) sorted ++ [(la, lb, 0)]

/-- Total size of the matching blocks (the matches count of ratio()). -/
def matchesTotal (a b : List α) : Nat :=
  (get_matching_blocks a b).foldl (fun acc t => acc + t.2.2) 0

/-- ratio() >= threshold, i.e. 2.0 * matches / (la + lb) >= num / den,
compared exactly (the float comparison agrees away from the representation
boundary, and all uses here are far from it). -/
def sequence_ratio_ge (a b : List α) (num den : Nat) : Bool :=
  den * (2 * matchesTotal a b) ≥ num * (a.length + b.length)

end SequenceMatcher

/-! ## snapshot.py: EDIT_SIMILARITY_THRESHOLD and _sequence_match -/

/-- EDIT_SIMILARITY_THRESHOLD = 0.9, as the exact rational 9/10. -/
def EDIT_SIMILARITY_THRESHOLD_NUM : Nat := 9

/-- Denominator of EDIT_SIMILARITY_THRESHOLD. -/
def EDIT_SIMILARITY_THRESHOLD_DEN : Nat := 10

/-- _sequence_match from snapshot.py: added lines whose
SequenceMatcher(None, added, removed).ratio() reaches the threshold
against some removed line are dropped as re-edits; with no removed
lines, the added lines pass through unchanged. -/
def _sequence_match (removed_lines added_lines : List String)
    (thresholdNum : Nat := EDIT_SIMILARITY_THRESHOLD_NUM)
    (thresholdDen : Nat := EDIT_SIMILARITY_THRESHOLD_DEN) : List String :=
  if removed_lines = [] then added_lines
  else
    added_lines.filter (fun added =>
      !(removed_lines.any (fun removed =>
        sequence_ratio_ge added.data removed.data thresholdNum thresholdDen)))

/-! ## difflib opcodes and unified_diff -/

/-- Opcode tags of SequenceMatcher.get_opcodes. -/
inductive Tag where
  | replace
  | delete
  | insert
  | equal
deriving Repr, DecidableEq

/-- An opcode (tag, i1, i2, j1, j2). -/
abbrev Opcode := Tag × Nat × Nat × Nat × Nat

/-- Worker of get_opcodes: walk the matching blocks with the (i, j)
cursor, emitting a gap opcode and an equal opcode per block. -/
def opcodesGo : Nat → Nat → List (Nat × Nat × Nat) → List Opcode
  | _, _, [] => []
  | i, j, (ai, bj, size) :: rest =>
    (if i < ai ∧ j < bj then [(Tag.replace, i, ai, j, bj)]
     else if i < ai then [(Tag.delete, i, ai, j, bj)]
     else if j < bj then [(Tag.insert, i, ai, j, bj)]
     else []) ++
    (if size ≠ 0 then [(Tag.equal, ai, ai + size, bj, bj + size)] else []) ++
    opcodesGo (ai + size) (bj + size) rest

/-- get_opcodes of SequenceMatcher. -/
def get_opcodes (a b : List α) [DecidableEq α] : List Opcode :=
  opcodesGo 0 0 (get_matching_blocks a b)

/-- Shrink a leading equal opcode to the last n context lines. -/
def trimFirstEqual (n : Nat) : List Opcode → List Opcode
  | (Tag.equal, i1, i2, j1, j2) :: rest =>
    (Tag.equal, max i1 (i2 - n), i2, max j1 (j2 - n), j2) :: rest
  | other => other

/-- Shrink a trailing equal opcode to the first n context lines. -/
def trimLastEqual (n : Nat) (codes : List Opcode) : List Opcode :=
  match codes.reverse with
  | (Tag.equal, i1, i2, j1, j2) :: restRev =>
    ((Tag.equal, i1, min i2 (i1 + n), j1, min j2 (j1 + n)) :: restRev).reverse
  | _ => codes

/-- Worker of get_grouped_opcodes: split at equal opcodes wider than
2n, keeping n lines of context on each side; a final group consisting
of a single equal opcode is not yielded. -/
def groupedGo (n : Nat) : List Opcode → List Opcode → List (List Opcode)
  | [], group =>
    match group with
    | [] => []
    | [(Tag.equal, _, _, _, _)] => []
    | g => [g]
  | (tag, i1, i2, j1, j2) :: rest, group =>
    if tag = Tag.equal ∧ i2 - i1 > n + n then
      (group ++ [(tag, i1, min i2 (i1 + n), j1, min j2 (j1 + n))]) ::
        groupedGo n rest [(tag, max i1 (i2 - n), i2, max j1 (j2 - n), j2)]
    else
      groupedGo n rest (group ++ [(tag, i1, i2, j1, j2)])

/-- get_grouped_opcodes of SequenceMatcher (context size n, default 3). -/
def get_grouped_opcodes (a b : List α) [DecidableEq α] (n : Nat := 3) :
    List (List Opcode) :=
  let codes0 := get_opcodes a b
  let codes1 := if codes0 = [] then [(Tag.equal, 0, 1, 0, 1)] else codes0
  let codes2 := trimLastEqual n (trimFirstEqual n codes1)
  groupedGo n codes2 []

/-- difflib._format_range_unified. -/
def _format_range_unified (start stop : Nat) : String :=
  let beginning := start + 1
  let length := stop - start
  if length = 1 then toString beginning
  else
    let beginning2 := if length = 0 then beginning - 1 else beginning
    toString beginning2 ++ "," ++ toString length

/-- Python list slice a i1 i2. -/
def pySlice (l : List String) (i1 i2 : Nat) : List String :=
  (l.drop i1).take (i2 - i1)

/-- Lines of one opcode inside a hunk. -/
def unifiedOpcodeLines (a b : List String) : Opcode → List String
  | (Tag.equal, i1, i2, _, _) => (pySlice a i1 i2).map (" " ++ ·)
  | (Tag.replace, i1, i2, j1, j2) =>
    (pySlice a i1 i2).map ("-" ++ ·) ++ (pySlice b j1 j2).map ("+" ++ ·)
  | (Tag.delete, i1, i2, _, _) => (pySlice a i1 i2).map ("-" ++ ·)
  | (Tag.insert, _, _, j1, j2) => (pySlice b j1 j2).map ("+" ++ ·)

/-- Lines of one group: hunk header then the opcode lines. -/
def unifiedGroupLines (a b : List String) (group : List Opcode) :
    List String :=
  match group with
  | [] => []
  | first :: rest =>
    let last := (first :: rest).getLast (by simp)
    ("@@ -" ++ _format_range_unified first.2.1 last.2.2.1 ++ " +" ++
      _format_range_unified first.2.2.2.1 last.2.2.2.2 ++ " @@") ::
    (first :: rest).flatMap (unifiedOpcodeLines a b)

/-- difflib.unified_diff(a, b, lineterm="") with default (empty) file
names and dates, as a list of lines: the two header lines are emitted
once, before the first group, and only when at least one group exists. -/
def unified_diff (a b : List String) : List String :=
  match get_grouped_opcodes a b 3 with
  | [] => []
  | g :: gs => "--- " :: "+++ " :: (g :: gs).flatMap (unifiedGroupLines a b)

/-! ## snapshot.py: get_raw_diff and update_snapshot -/

/-- get_raw_diff from snapshot.py: None for falsy previous content, else
the newline-joined unified diff of the splitlines, or None when the
diff has no lines. -/
def get_raw_diff (previous_content : Option String)
    (current_content : String) : Option String :=
  match previous_content with
  | none => none
  | some p =>
    if p = "" then none
    else
      let diff_lines := unified_diff (pySplitlines p)
        (pySplitlines current_content)
      if diff_lines = [] then none else some (pyJoin "\n" diff_lines)

/-- PageSnapshot from snapshot.py.  The timestamp is Optional here
because watcher.py passes page_data.get("timestamp"), which may be
None. -/
structure PageSnapshot where
  page_name : String
  content : String
  timestamp : Option String
  diff : Option String := none
deriving Repr, DecidableEq

/-- update_snapshot from snapshot.py: diff is computed only when a
previous snapshot exists and its content is truthy. -/
def update_snapshot (page_name : String) (current_content : String)
    (snapshots : List (String × PageSnapshot)) (timestamp : Option String) :
    PageSnapshot :=
  let previous_snapshot := snapshots.lookup page_name
  let previous_content := previous_snapshot.map (fun s => s.content)
  let diff :=
    match previous_content with
    | none => none
    | some p => if p = "" then none else get_raw_diff (some p) current_content
  { page_name := page_name, content := current_content,
    timestamp := timestamp, diff := diff }

set_option maxRecDepth 1000000

/-- C5: the claim says the removed=TESTtest / added=TESTtesttt pair has
similarity at least 0.9 so the added line is suppressed, and the
repository's own test (test_snapshot_sequence_match.py) asserts that
suppression; but the code computes ratio 2*8/18 = 8/9 < 9/10 and keeps
the added line, contradicting its own test.  The no-op part of the
claim (removed = empty) does hold.  This theorem evaluates the code at
the failing input. -/
theorem sequence_match_C5 :
    (∀ added, _sequence_match [] added = added) ∧
    matchesTotal "TESTtesttt".data "TESTtest".data = 8 ∧
    sequence_ratio_ge "TESTtesttt".data "TESTtest".data
      EDIT_SIMILARITY_THRESHOLD_NUM EDIT_SIMILARITY_THRESHOLD_DEN = false ∧
    _sequence_match ["TESTtest"] ["TESTtesttt"] = ["TESTtesttt"] :=
  ⟨fun _ => rfl, by decide, by decide, by decide⟩

/-! ## snapshot.py: _normalize_diff_line (the re.sub chain), via a
single generic left-to-right scan-and-substitute engine -/

/-- Generic non-overlapping left-to-right substitution engine: at each
position, try_ either matches (returning the replacement and the number
of consumed characters minus one) or fails and the character is copied.
The fuel argument only drives structural recursion; every match
consumes at least one character, so fuel = length never runs out. -/
def scanSubGo (try_ : List Char → Option (List Char × Nat)) :
    Nat → List Char → List Char
  | _, [] => []
  | 0, l => l
  | fuel + 1, c :: cs =>
    match try_ (c :: cs) with
    | some (repl, extra) => repl ++ scanSubGo try_ fuel (cs.drop extra)
    | none => c :: scanSubGo try_ fuel cs

/-- re.sub-style substitution of a pattern given by try_. -/
def scanSub (try_ : List Char → Option (List Char × Nat)) (l : List Char) :
    List Char :=
  scanSubGo try_ l.length l

/-- Literal pattern match returning none: two apostrophes (the pattern
of content.replace, dropping wiki emphasis markers). -/
def tryQuotes2 : List Char → Option (List Char × Nat)
  | '\'' :: '\'' :: _ => some ([], 1)
  | _ => none

/-- Pattern ampersand color ( args ) lbrace text rbrace optional
semicolon, replaced by the text (re.sub line 50 of snapshot.py). -/
def tryColorBrace (l : List Char) : Option (List Char × Nat) :=
  if startsWithL l "&color(".data then
    let afterOpen := l.drop 7
    let args := afterOpen.takeWhile (fun c => c ≠ ')')
    let rest1 := afterOpen.dropWhile (fun c => c ≠ ')')
    match rest1 with
    | ')' :: '{' :: rest2 =>
      let txt := rest2.takeWhile (fun c => c ≠ '}')
      let rest3 := rest2.dropWhile (fun c => c ≠ '}')
      match rest3 with
      | '}' :: rest4 =>
        let semi := if rest4.take 1 = [';'] then 1 else 0
        some (txt, 7 + args.length + 2 + txt.length + 1 + semi - 1)
      | _ => none
    | _ => none
  else none

/-- Pattern ampersand color ( args ), removed (re.sub line 51). -/
def tryColorBare (l : List Char) : Option (List Char × Nat) :=
  if startsWithL l "&color(".data then
    let afterOpen := l.drop 7
    let args := afterOpen.takeWhile (fun c => c ≠ ')')
    let rest1 := afterOpen.dropWhile (fun c => c ≠ ')')
    match rest1 with
    | ')' :: _ => some ([], 7 + args.length + 1 - 1)
    | _ => none
  else none

/-- Pattern ampersand size ( args ) lbrace text rbrace optional
semicolon, replaced by the text (re.sub line 53). -/
def trySizeBrace (l : List Char) : Option (List Char × Nat) :=
  if startsWithL l "&size(".data then
    let afterOpen := l.drop 6
    let args := afterOpen.takeWhile (fun c => c ≠ ')')
    let rest1 := afterOpen.dropWhile (fun c => c ≠ ')')
    match rest1 with
    | ')' :: '{' :: rest2 =>
      let txt := rest2.takeWhile (fun c => c ≠ '}')
      let rest3 := rest2.dropWhile (fun c => c ≠ '}')
      match rest3 with
      | '}' :: rest4 =>
        let semi := if rest4.take 1 = [';'] then 1 else 0
        some (txt, 6 + args.length + 2 + txt.length + 1 + semi - 1)
      | _ => none
    | _ => none
  else none

/-- Pattern ampersand size ( args ), removed (re.sub line 54). -/
def trySizeBare (l : List Char) : Option (List Char × Nat) :=
  if startsWithL l "&size(".data then
    let afterOpen := l.drop 6
    let args := afterOpen.takeWhile (fun c => c ≠ ')')
    let rest1 := afterOpen.dropWhile (fun c => c ≠ ')')
    match rest1 with
    | ')' :: _ => some ([], 6 + args.length + 1 - 1)
    | _ => none
  else none

/-- Pattern ampersand, one-plus word chars, group of non-semicolons,
semicolon, replaced by the group (re.sub line 56). -/
def tryAmp : List Char → Option (List Char × Nat)
  | '&' :: rest =>
    let word := rest.takeWhile isPyWord
    let rest1 := rest.dropWhile isPyWord
    if word = [] then none
    else
      let grp := rest1.takeWhile (fun c => c ≠ ';')
      let rest2 := rest1.dropWhile (fun c => c ≠ ';')
      match rest2 with
      | ';' :: _ => some (grp, 1 + word.length + grp.length + 1 - 1)
      | _ => none
  | _ => none

/-- Pattern percent-percent text percent-percent, converted to
strikethrough tildes (re.sub line 58). -/
def tryStrike : List Char → Option (List Char × Nat)
  | '%' :: '%' :: rest =>
    let txt := rest.takeWhile (fun c => c ≠ '%')
    let rest1 := rest.dropWhile (fun c => c ≠ '%')
    match rest1 with
    | '%' :: '%' :: _ => some ('~' :: '~' :: (txt ++ ['~', '~']), 2 + txt.length + 2 - 1)
    | _ => none
  | _ => none

/-- Pattern triple-percent text triple-percent, converted to
underline underscores (re.sub line 60). -/
def tryUnderline : List Char → Option (List Char × Nat)
  | '%' :: '%' :: '%' :: rest =>
    let txt := rest.takeWhile (fun c => c ≠ '%')
    let rest1 := rest.dropWhile (fun c => c ≠ '%')
    match rest1 with
    | '%' :: '%' :: '%' :: _ =>
      some ('_' :: '_' :: (txt ++ ['_', '_']), 3 + txt.length + 3 - 1)
    | _ => none
  | _ => none

/-- Pattern lbrace text rbrace, unwrapped (re.sub line 62). -/
def tryBraces : List Char → Option (List Char × Nat)
  | '{' :: rest =>
    let txt := rest.takeWhile (fun c => c ≠ '}')
    let rest1 := rest.dropWhile (fun c => c ≠ '}')
    match rest1 with
    | '}' :: _ => some (txt, 1 + txt.length + 1 - 1)
    | _ => none
  | _ => none

/-- Pattern optional whitespace, bracket hash name bracket, removed
(anchor references, re.sub line 64).  The leading whitespace run is
consumed one character at a time. -/
def tryAnchor : List Char → Option (List Char × Nat)
  | [] => none
  | c :: rest =>
    if isPySpace c then (tryAnchor rest).map (fun pr => (pr.1, pr.2 + 1))
    else
      match c, rest with
      | '[', '#' :: rest2 =>
        let nm := rest2.takeWhile (fun x => x ≠ ']')
        let rest3 := rest2.dropWhile (fun x => x ≠ ']')
        if nm = [] then none
        else
          match rest3 with
          | ']' :: _ => some ([], 2 + nm.length + 1 - 1)
          | _ => none
      | _, _ => none

/-- Bullet stripping (lines 66-70): an anchored re.sub removing leading
whitespace, two dashes or one dash, and following whitespace, applied
only when the lstripped line starts with the dashes. -/
def bulletSub (l : List Char) : List Char :=
  let stripped := pyLstrip l
  if startsWithL stripped "--".data then
    (stripped.drop 2).dropWhile isPySpace
  else if startsWithL stripped "-".data then
    (stripped.drop 1).dropWhile isPySpace
  else l

/-- Literal ampersand br ( ) removal (re.sub line 72). -/
def tryBrParen (l : List Char) : Option (List Char × Nat) :=
  if startsWithL l "&br()".data then some ([], 4) else none

/-- Literal ampersand br semicolon removal (re.sub line 73). -/
def tryBrSemi (l : List Char) : Option (List Char × Nat) :=
  if startsWithL l "&br;".data then some ([], 3) else none

/-- Leading asterisks and following whitespace removal, anchored
(re.sub line 75). -/
def starSub (l : List Char) : List Char :=
  let stars := l.takeWhile (fun c => c = '*')
  if stars = [] then l
  else (l.dropWhile (fun c => c = '*')).dropWhile isPySpace

/-- The markup substitution chain of lines 48-64 (everything between
the drop checks and the bullet stripping). -/
def markupStrip (cl : List Char) : List Char :=
  let f1 := scanSub tryQuotes2 cl
  let f2 := scanSub tryColorBrace f1
  let f3 := scanSub tryColorBare f2
  let f4 := scanSub trySizeBrace f3
  let f5 := scanSub trySizeBare f4
  let f6 := scanSub tryAmp f5
  let f7 := scanSub tryStrike f6
  let f8 := scanSub tryUnderline f7
  let f9 := scanSub tryBraces f8
  scanSub tryAnchor f9

/-- The tail of the chain after bullet stripping (lines 72-78):
br-macro removal, leading asterisk stripping, final strip. -/
def normalizeTail (cl : List Char) : Option String :=
  let f12 := scanSub tryBrParen cl
  let f13 := scanSub tryBrSemi f12
  let f14 := starSub f13
  let r := pyStripL f14
  if r = [] then none else some (String.mk r)

/-- Does the line pass the drop checks of lines 31-45? -/
def normalizeKept (cl : List Char) : Bool :=
  !(pyStripL cl = []) &&
  !(startsWithL (pyLstrip cl) "//".data) &&
  !(startsWithL (pyLstrip cl) "|".data) &&
  !(pyStripL cl = "#br".data || pyStripL cl = "#br;".data) &&
  !(startsWithL (pyLstrip cl) "#".data)

/-- _normalize_diff_line from snapshot.py: the drop checks, then the
substitution chain, bullet stripping and the tail, with None for an
empty result. -/
def _normalize_diff_line (content : String) : Option String :=
  if normalizeKept content.data then
    normalizeTail (bulletSub (markupStrip content.data))
  else none

/-! ## snapshot.py: _parse_diff and get_display_diff -/

/-- Python line[1:].rstrip(newline): drop trailing newline characters. -/
def rstripNl (l : List Char) : List Char :=
  (l.reverse.dropWhile (fun c => c = '\n')).reverse

/-- _parse_diff from snapshot.py: normalize the content of every
removed and added line (skipping the header lines), keeping order. -/
def _parse_diff : List String → List String × List String
  | [] => ([], [])
  | line :: rest =>
    let (removed, added) := _parse_diff rest
    if startsWithL line.data "+++".data then (removed, added)
    else if startsWithL line.data "---".data then (removed, added)
    else if startsWithL line.data "-".data then
      match _normalize_diff_line (String.mk (rstripNl (line.data.drop 1))) with
      | some n => (n :: removed, added)
      | none => (removed, added)
    else if startsWithL line.data "+".data then
      match _normalize_diff_line (String.mk (rstripNl (line.data.drop 1))) with
      | some n => (removed, n :: added)
      | none => (removed, added)
    else (removed, added)

/-- get_display_diff from snapshot.py. -/
def get_display_diff (raw_diff : Option String)
    (apply_sequence_match : Bool := true) : Option String :=
  match raw_diff with
  | none => none
  | some rd =>
    if rd = "" then none
    else
      let diff_lines := pySplitChar '\n' rd
      let (removed_lines, added_lines) := _parse_diff diff_lines
      let unique_added :=
        if apply_sequence_match then _sequence_match removed_lines added_lines
        else added_lines
      if unique_added = [] then none else some (pyJoin "\n" unique_added)

/-! ## snapshot.py: _convert_links, display width, preview (C9) -/

/-- Wiki-style link bracket bracket label gt url bracket bracket,
replaced by the label (the greedy first group takes everything up to
the last gt of the bracket-free run). -/
def tryWikiLink : List Char → Option (List Char × Nat)
  | '[' :: '[' :: rest =>
    let run := rest.takeWhile (fun c => c ≠ ']')
    let rest1 := rest.dropWhile (fun c => c ≠ ']')
    match rest1 with
    | ']' :: ']' :: _ =>
      let label := (run.reverse.dropWhile (fun c => c ≠ '>')).reverse
      match label.reverse with
      | '>' :: lrev =>
        if lrev = [] ∨ run.takeWhile (fun c => c ≠ '>') = run then none
        else
          if (run.drop label.length) = [] then none
          else some (lrev.reverse, 2 + run.length + 2 - 1)
      | _ => none
    | _ => none
  | _ => none

/-- Markdown link bracket label bracket paren url paren, replaced by
the label. -/
def tryMdLink : List Char → Option (List Char × Nat)
  | '[' :: rest =>
    let label := rest.takeWhile (fun c => c ≠ ']')
    let rest1 := rest.dropWhile (fun c => c ≠ ']')
    if label = [] then none
    else
      match rest1 with
      | ']' :: '(' :: rest2 =>
        let url := rest2.takeWhile (fun c => c ≠ ')')
        let rest3 := rest2.dropWhile (fun c => c ≠ ')')
        if url = [] then none
        else
          match rest3 with
          | ')' :: _ =>
            some (label, 1 + label.length + 2 + url.length + 1 - 1)
          | _ => none
      | _ => none
  | _ => none

/-- Bare http or https URL up to whitespace, removed. -/
def tryUrl (l : List Char) : Option (List Char × Nat) :=
  let base :=
    if startsWithL l "https://".data then some 8
    else if startsWithL l "http://".data then some 7
    else none
  match base with
  | none => none
  | some b =>
    let run := (l.drop b).takeWhile (fun c => !(isPySpace c))
    if run = [] then none else some ([], b + run.length - 1)

/-- _convert_links from snapshot.py: wiki links to labels, markdown
links to labels, bare URLs removed, in that order. -/
def _convert_links (text : List Char) : List Char :=
  scanSub tryUrl (scanSub tryMdLink (scanSub tryWikiLink text))

/-- _get_display_width from snapshot.py: characters above the ASCII
range count 2, others 1. -/
def _get_display_width (text : List Char) : Nat :=
  (text.map (fun c => if c.toNat > 127 then 2 else 1)).sum

/-- Full-string markdown-link test, re.match of the token pattern with
end anchor: tryMdLink must match and consume the whole string. -/
def isLinkToken (s : String) : Bool :=
  match tryMdLink s.data with
  | some (_, extra) => extra + 1 = s.data.length
  | none => false

/-- The literal text of a markdown-link match starting here, used to
rebuild the token that re.split captured. -/
def splitLinksGo (fuel : Nat) : List Char → List Char → List String :=
  match fuel with
  | 0 => fun l cur => [String.mk (cur.reverse ++ l)]
  | fuel + 1 => fun l cur =>
    match l with
    | [] => [String.mk cur.reverse]
    | c :: cs =>
      match tryMdLink (c :: cs) with
      | some (_, extra) =>
        String.mk cur.reverse ::
          String.mk ((c :: cs).take (extra + 1)) ::
          splitLinksGo fuel (cs.drop extra) []
      | none => splitLinksGo fuel cs (c :: cur)

/-- re.split with the capturing markdown-link pattern: alternating
non-match segments (possibly empty) and captured tokens. -/
def splitLinks (s : String) : List String :=
  splitLinksGo s.data.length s.data []

/-- One character-budget truncation (the inner for/break loop of
get_content_diff_preview). -/
def truncateChars (remaining : Nat) : Nat → List Char → List Char
  | _, [] => []
  | current, c :: cs =>
    let cw := if c.toNat > 127 then 2 else 1
    if current + cw > remaining then []
    else c :: truncateChars remaining (current + cw) cs

/-- The part-assembly loop of get_content_diff_preview: link tokens are
appended whole and cost nothing; other parts consume the display-width
budget, the part overflowing it being cut at the budget. -/
def previewLoop (max_chars : Nat) : List String → Nat → List String
  | [], _ => []
  | part :: rest, char_count =>
    if isLinkToken part then part :: previewLoop max_chars rest char_count
    else if char_count < max_chars then
      let remaining := max_chars - char_count
      let part_width := _get_display_width part.data
      if part_width > remaining then
        String.mk (truncateChars remaining 0 part.data) ::
          previewLoop max_chars rest max_chars
      else part :: previewLoop max_chars rest (char_count + part_width)
    else previewLoop max_chars rest char_count

/-- ASCII str.lower() (the page names compared here are ASCII). -/
def asciiLower (s : String) : String :=
  String.mk (s.data.map (fun c =>
    if 65 ≤ c.toNat ∧ c.toNat ≤ 90 then Char.ofNat (c.toNat + 32) else c))

/-- get_content_diff_preview from snapshot.py. -/
def get_content_diff_preview (snapshot : Option PageSnapshot)
    (max_chars : Nat := 80)
    (full_diff_page_names : Option (List String) := none) : Option String :=
  match snapshot with
  | none => none
  | some snap =>
    match snap.diff with
    | none => none
    | some d =>
      if d = "" then none
      else
        let apply_sequence_match :=
          match full_diff_page_names with
          | none => true
          | some names =>
            !((names.map asciiLower).contains (asciiLower snap.page_name))
        match get_display_diff (some d) apply_sequence_match with
        | none => none
        | some dd =>
          if dd = "" then none
          else
            let diff_text := _convert_links dd.data
            let first_line := (pySplitChar '\n' (String.mk diff_text)).headD ""
            let parts := splitLinks first_line
            let result := previewLoop max_chars parts 0
            let preview_text := pyStrip (String.join result)
            if preview_text = "" then none else some preview_text

/-! ## discord.py: Event and WebhookClient.send_events (C7) -/

/-- Event from discord.py (shared with watcher.py, which imports it). -/
structure Event where
  title : String
  url : String
  page_name : String
  date : Option String := none
  diff_preview : Option String := none
  is_initial : Bool := false
deriving Repr, DecidableEq

/-- Take exactly n digits, returning their value and the rest. -/
def parseDigits : Nat → List Char → Option (Nat × List Char)
  | 0, l => some (0, l)
  | _ + 1, [] => none
  | n + 1, c :: cs =>
    if 48 ≤ c.toNat ∧ c.toNat ≤ 57 then
      match parseDigits n cs with
      | some (v, rest) => some ((c.toNat - 48) * 10 ^ n + v, rest)
      | none => none
    else none

/-- datetime.fromisoformat then strftime of the common forms
YYYY-MM-DD, optionally T or space and HH:MM, optionally :SS and a
fraction or offset; anything else (ValueError) falls back to the input,
as _format_date does.  Range validation is approximated by the month
and day bounds. -/
def formatIsoDate (s : String) : String :=
  match parseDigits 4 s.data with
  | none => s
  | some (y, r1) =>
    match r1 with
    | '-' :: r2 =>
      match parseDigits 2 r2 with
      | none => s
      | some (mo, r3) =>
        match r3 with
        | '-' :: r4 =>
          match parseDigits 2 r4 with
          | none => s
          | some (d, r5) =>
            if mo = 0 ∨ mo > 12 ∨ d = 0 ∨ d > 31 then s
            else
              let hm :=
                match r5 with
                | [] => some (0, 0)
                | sep :: r6 =>
                  if sep = 'T' ∨ sep = ' ' then
                    match parseDigits 2 r6 with
                    | none => none
                    | some (h, r7) =>
                      match r7 with
                      | ':' :: r8 =>
                        match parseDigits 2 r8 with
                        | none => none
                        | some (mi, _) =>
                          if h > 23 ∨ mi > 59 then none else some (h, mi)
                      | _ => none
                  else none
              match hm with
              | none => s
              | some (h, mi) =>
                toString y ++ "年" ++ toString mo ++ "月" ++ toString d ++
                  "日 " ++ (if h < 10 then "0" else "") ++ toString h ++
                  "時" ++ (if mi < 10 then "0" else "") ++ toString mi ++ "分"
        | _ => s
    | _ => s

/-- _format_date from discord.py. -/
def _format_date (iso_date_str : Option String) : String :=
  match iso_date_str with
  | none => ""
  | some s => if s = "" then "" else formatIsoDate s

/-- Is the optional header truthy (present and non-empty)? -/
def headerTruthy : Option String → Bool
  | none => false
  | some h => h ≠ ""

/-- The message body built for one event by send_events, with or
without the header prepended. -/
def sendEventMessage (item : Event) (header : Option String)
    (withHeader : Bool) : String :=
  let parts :=
    (if withHeader then [header.getD ""] else []) ++
    ["**" ++ item.title ++ "**"] ++
    (match item.date with
     | some dt =>
       if dt ≠ "" ∧ !item.is_initial then ["🕐 " ++ _format_date item.date]
       else []
     | none => []) ++
    ["🔗 <" ++ item.url ++ ">"] ++
    (match item.diff_preview with
     | some dp =>
       if dp ≠ "" ∧ !item.is_initial then ["📝 " ++ dp ++ " ...\n"]
       else []
     | none => []) ++
    [String.mk (List.replicate 40 '━')]
  pyJoin "\n" parts

/-- WebhookClient.send_events from discord.py, as the list of outbound
message contents (the HTTP posts and their responses are I/O).  The
header is prepended when header is truthy and the item equals
items[0] — a value comparison, since Event is a frozen dataclass. -/
def send_events_messages (events : List Event) (header : Option String) :
    List String :=
  match events with
  | [] => []
  | first :: _ =>
    events.map (fun item =>
      sendEventMessage item header (headerTruthy header && item = first))

/-! ## watcher.py: configuration, page data and the per-page machine -/

/-- Emoji constants from the emoji module (not under src/; the concrete
glyphs never matter to a claim, representative ones are used). -/
def Emoji.update : String := "🔄"

/-- Emoji used in first-run and auto-track notification titles. -/
def Emoji.initial : String := "🔔"

/-- The page data dict returned by WikiClient.get_page, read with
page_data.get, so every field is optional. -/
structure PageData where
  page : Option String := none
  timestamp : Option String := none
  source : Option String := none
deriving Repr, DecidableEq

/-- Config from watcher.py, restricted to the fields the embedded
functions read (the credential, path and RSS fields feed only the
excluded I/O layers). -/
structure Config where
  wiki_url : String := ""
  page_names : List String := []
  monitor_recent_created : Bool := true
  diff_full_pages : List String := []
deriving Repr, DecidableEq

/-- Python dict item assignment d[k] = v: an existing key keeps its
position, a new key is appended. -/
def assocSet {V : Type} : List (String × V) → String → V → List (String × V)
  | [], k, v => [(k, v)]
  | (k1, v1) :: rest, k, v =>
    if k1 = k then (k1, v) :: rest else (k1, v1) :: assocSet rest k v

/-- normalize_link from watcher.py: strip, then strip trailing slashes. -/
def normalize_link (link : String) : String :=
  String.mk ((((pyStripL link.data).reverse).dropWhile (fun c => c = '/')).reverse)

/-- Python str.rstrip(slash) for building page URLs. -/
def rstripSlash (s : String) : String :=
  String.mk ((s.data.reverse.dropWhile (fun c => c = '/')).reverse)

/-- Worker of _is_page_closed: skip blank lines, decide on the first
non-blank one. -/
def isPageClosedGo : List String → Bool
  | [] => false
  | line :: rest =>
    let stripped := pyStripL line.data
    if stripped = [] then isPageClosedGo rest
    else
      startsWithL stripped "* 【終了】".data || startsWithL stripped "*【終了】".data

/-- _is_page_closed from watcher.py. -/
def _is_page_closed (page_content : String) : Bool :=
  if page_content = "" then false
  else isPageClosedGo (pySplitChar '\n' page_content)

/-- The sort key comparison of prune_state: keys ordered by their
timestamp value seen.get(k, empty) in Python string order. -/
def pruneRel (seen : List (String × String)) (k1 k2 : String) : Prop :=
  pyStrLe ((seen.lookup k1).getD "") ((seen.lookup k2).getD "") = true

instance (seen : List (String × String)) : DecidableRel (pruneRel seen) :=
  fun a b => by
    unfold pruneRel
    infer_instance

/-- prune_state from watcher.py: when the seen map exceeds max_items,
sort its keys by their timestamp value (Python string order; the stable
timsort is modelled by the stable insertion sort) and delete the
oldest-by-value surplus keys. -/
def prune_state (seen : List (String × String)) (max_items : Nat) :
    List (String × String) :=
  if seen.length ≤ max_items then seen
  else
    let keys := seen.map Prod.fst
    let sortedKeys := List.insertionSort (pruneRel seen) keys
    let toRemove := sortedKeys.take (keys.length - max_items)
    seen.filter (fun kv => !(toRemove.contains kv.1))

/-- _check_page_data from watcher.py: the per-page event decision. -/
def _check_page_data (page_name : String) (page_data : PageData)
    (state : State) (cfg : Config) (event_type : String := "update") :
    Option Event :=
  let page_path := "page/" ++ page_name
  let page_key := normalize_link page_path
  let page_title := page_data.page.getD page_name
  let page_date := page_data.timestamp
  let page_content := page_data.source
  let page_url :=
    if cfg.wiki_url ≠ "" then rstripSlash cfg.wiki_url ++ "/?" ++ page_name
    else page_name
  if event_type = "created" then none
  else
    let page_event_title :=
      Emoji.update ++ " 【" ++ page_title ++ "】 が更新されました。"
    let is_page_first_run :=
      (state.content_hashes.lookup ("content_" ++ page_name)).isNone
    if is_page_first_run then
      some { title := Emoji.initial ++ " 【" ++ page_title ++
               "】 の通知が設定されました。",
             url := page_url, page_name := page_name, date := page_date,
             is_initial := true }
    else
      let stored_date := state.seen.lookup page_key
      match page_date with
      | none => none
      | some pd =>
        if pd = "" then none
        else if stored_date ≠ some pd then
          match page_content with
          | none => none
          | some pc =>
            if pc = "" then none
            else if has_page_content_changed page_name (some pc) state then
              some { title := page_event_title, url := page_url,
                     page_name := page_name, date := page_date }
            else none
        else none

/-- The mutable outcome of processing one fetched page inside
_check_monitored_pages. -/
structure CheckStepResult where
  state : State
  updated_snapshots : List (String × PageSnapshot)
  events : List Event
deriving Repr, DecidableEq

/-- The body of the per-page loop of _check_monitored_pages (lines
249-299 of watcher.py) for one successfully fetched page: if
_check_page_data yields no event the page is skipped entirely (the
continue); otherwise, for truthy content, the closed page is discarded
from the dynamic set, the content hash is refreshed, the snapshot is
updated when the hash changed, and the event is appended when it is
initial or has a truthy diff preview. -/
def _check_monitored_pages_step (p_name : String) (p_data : PageData)
    (state : State) (cfg : Config)
    (snapshots : List (String × PageSnapshot))
    (updated_snapshots : List (String × PageSnapshot))
    (events : List Event) : CheckStepResult :=
  match _check_page_data p_name p_data state cfg with
  | none => ⟨state, updated_snapshots, events⟩
  | some event =>
    let p_content := p_data.source
    let p_date := p_data.timestamp
    let p_key := "content_" ++ p_name
    let step2 : State × List (String × PageSnapshot) :=
      match p_content with
      | none => (state, updated_snapshots)
      | some pc =>
        if pc = "" then (state, updated_snapshots)
        else
          let dyn2 :=
            if _is_page_closed pc then
              state.dynamic_monitored_pages.erase p_name
            else state.dynamic_monitored_pages
          let p_old := state.content_hashes.lookup p_key
          let p_new := md5Hex pc
          let hashes2 := assocSet state.content_hashes p_key p_new
          let upd2 :=
            if p_old ≠ some p_new then
              assocSet updated_snapshots p_name
                (update_snapshot p_name pc snapshots p_date)
            else updated_snapshots
          ({ state with
               dynamic_monitored_pages := dyn2
               content_hashes := hashes2 }, upd2)
    let state2 := step2.1
    let upd2 := step2.2
    let diff_prev :=
      if event.is_initial then none
      else
        match upd2.lookup p_name with
        | none => none
        | some evt_snap =>
          get_content_diff_preview (some evt_snap) 80 (some cfg.diff_full_pages)
    let events2 :=
      if event.is_initial || (diff_prev.isSome && diff_prev ≠ some "") then
        events ++ [{ title := event.title, url := event.url,
                     page_name := event.page_name, date := event.date,
                     diff_preview := diff_prev,
                     is_initial := event.is_initial }]
      else events
    ⟨state2, upd2, events2⟩

/-- clean_monitored_state from watcher.py: drop seen entries for
page/ keys outside the monitored set and content-hash entries outside
the monitored content keys (the Python sets are modelled as lists with
membership). -/
def clean_monitored_state (seen : List (String × String))
    (content_hashes : List (String × String)) (cfg : Config)
    (state : State) : List (String × String) × List (String × String) :=
  let monitored_page_keys :=
    cfg.page_names.map (fun p => normalize_link ("page/" ++ p)) ++
    state.dynamic_monitored_pages.map (fun p => normalize_link ("page/" ++ p)) ++
    (if cfg.monitor_recent_created then [normalize_link "page/RecentCreated"]
     else []) ++
    (if cfg.page_names ≠ [] ∨ state.dynamic_monitored_pages ≠ [] then
      [normalize_link "page/RecentChanges"]
     else [])
  let cleaned_seen := seen.filter (fun kv =>
    monitored_page_keys.contains kv.1 || !(startsWithL kv.1.data "page/".data))
  let monitored_content_keys :=
    cfg.page_names.map (fun p => "content_" ++ p) ++
    state.dynamic_monitored_pages.map (fun p => "content_" ++ p) ++
    (if cfg.monitor_recent_created then ["content_RecentCreated"] else []) ++
    (if cfg.page_names ≠ [] ∨ state.dynamic_monitored_pages ≠ [] then
      ["content_RecentChanges"]
     else [])
  let cleaned_hashes := content_hashes.filter (fun kv =>
    monitored_content_keys.contains kv.1)
  (cleaned_seen, cleaned_hashes)

/-- The seen-map update of run (lines 830-834): every sent event writes
its date under the page key.  A None event date would be stored as None
by Python (making the later sort raise); no claim exercises that path,
and the empty string stands for it here. -/
def run_updated_seen (state : State) (events_to_send : List Event) :
    List (String × String) :=
  events_to_send.foldl
    (fun m event =>
      assocSet m (normalize_link ("page/" ++ event.page_name))
        (event.date.getD ""))
    state.seen

/-- The state-cleanup portion of run (lines 830-843): seen updates,
then clean_monitored_state, then prune_state with max_items = 5000. -/
def run_state_cleanup (state : State) (events_to_send : List Event)
    (cfg : Config) : List (String × String) × List (String × String) :=
  let updated_seen := run_updated_seen state events_to_send
  let cleaned := clean_monitored_state updated_seen state.content_hashes cfg state
  (prune_state cleaned.1 5000, cleaned.2)

/-! ## Claim C7: one message per event, header placement -/

/-- Sample event for the C7 counterexample. -/
def evC7 : Event := { title := "t", url := "u", page_name := "p" }

/-- Second sample event (differing from evC7) for the C7 witness. -/
def evC7b : Event := { title := "t2", url := "u2", page_name := "p2" }

/-- C7 counterexample: the claim says that even for lists containing an
event equal to the first one at a later position, no message other than
the first contains the header; but send_events prepends the header to
every item that compares equal to items[0] (a dataclass value
comparison), so with events = [e, e] the second outbound message also
starts with the header line H. -/
theorem send_events_C7_counterexample :
    (send_events_messages [evC7, evC7] (some "H")).get? 1 =
      some (sendEventMessage evC7 (some "H") true) ∧
    sendEventMessage evC7 (some "H") true =
      "H\n**t**\n🔗 <u>\n" ++ String.mk (List.replicate 40 '━') := by
  constructor
  · rfl
  · rfl

/-- C7 amended: exactly one outbound message is produced per event, and
the header, when truthy, is prepended to a message exactly when its
event equals the first event — so it is on the first message, and on no
later message whose event differs from the first (the claim fails only
for later events equal to the first). -/
theorem send_events_C7_amended (events : List Event) (header : Option String) :
    (send_events_messages events header).length = events.length ∧
    (∀ i e first, events.get? 0 = some first → events.get? i = some e →
      (send_events_messages events header).get? i =
        some (sendEventMessage e header (headerTruthy header && e = first))) := by
  match events with
  | [] =>
    refine ⟨rfl, ?_⟩
    intro i e first h0 _
    simp at h0
  | f :: rest =>
    constructor
    · simp [send_events_messages]
    · intro i e first h0 hi
      have hf : first = f := by
        simp only [List.get?] at h0
        exact (Option.some.injEq _ _ ▸ h0).symm
      subst hf
      simp only [send_events_messages, List.get?_map, hi]
      rfl

/-- C7 witness: instantiating the amended theorem on two distinct
events shows two messages, the second without the header. -/
theorem send_events_C7_witness :
    (send_events_messages [evC7, evC7b] (some "H")).length = 2 ∧
    (send_events_messages [evC7, evC7b] (some "H")).get? 1 =
      some (sendEventMessage evC7b (some "H") false) := by
  have h := send_events_C7_amended [evC7, evC7b] (some "H")
  refine ⟨h.1, ?_⟩
  have h2 := h.2 1 evC7b evC7 rfl rfl
  rw [h2]
  rfl

/-! ## Claim C1: when the per-page machine refreshes the content hash -/

/-- Lookup after Python dict assignment finds the assigned value. -/
theorem assocSet_lookup_self {V : Type} (m : List (String × V)) (k : String)
    (v : V) : (assocSet m k v).lookup k = some v := by
  induction m with
  | nil => simp [assocSet, List.lookup]
  | cons kv rest ih =>
    rcases kv with ⟨k1, v1⟩
    by_cases h : k1 = k
    · subst h
      simp [assocSet, List.lookup]
    · have hbeq : (k == k1) = false := beq_eq_false_iff_ne.mpr (Ne.symm h)
      simp [assocSet, if_neg h, List.lookup, hbeq, ih]

/-- State for the C1 counterexample: page P was seen at T1 with a
stored content hash. -/
def stC1 : State :=
  { seen := [("page/P", "T1")], updated_at := none,
    content_hashes := [("content_P", "oldhash")],
    dynamic_monitored_pages := [] }

/-- Fetched data for the C1 counterexample: same timestamp T1, but a
new non-empty body. -/
def pdC1 : PageData :=
  { page := some "P", timestamp := some "T1", source := some "newbody" }

/-- C1 counterexample: the claim says the stored content hash is
refreshed to the hash of the fetched body on every processed page with
a non-empty body, in particular when the fetched timestamp equals the
stored seen timestamp; but in that case _check_page_data returns no
event and the loop body continues without touching the state, so the
stored hash stays oldhash, different from the MD5 of the new body. -/
theorem check_step_C1_counterexample :
    (_check_monitored_pages_step "P" pdC1 stC1 {} [] [] []).state.content_hashes.lookup
        "content_P" = some "oldhash" ∧
    "oldhash" ≠ md5Hex "newbody" := by
  constructor
  · rfl
  · decide

/-- Case analysis of the event-append decision of the loop body, for an
arbitrary computed diff preview D. -/
theorem eventsAppendCases (events : List Event) (e : Event)
    (D : Option String) :
    (if (D.isSome && decide (D ≠ some "")) = true then
       events ++ [{ title := e.title, url := e.url,
                    page_name := e.page_name, date := e.date,
                    diff_preview := D, is_initial := false }]
     else events) = events ∨
    ∃ dp, dp ≠ "" ∧
      (if (D.isSome && decide (D ≠ some "")) = true then
        events ++ [{ title := e.title, url := e.url,
                     page_name := e.page_name, date := e.date,
                     diff_preview := D, is_initial := false }]
       else events) = events ++
        [{ title := e.title, url := e.url, page_name := e.page_name,
           date := e.date, diff_preview := some dp,
           is_initial := false }] := by
  match D with
  | none => exact Or.inl (by simp)
  | some dp =>
    by_cases hdp : dp = ""
    · subst hdp
      exact Or.inl (by simp)
    · refine Or.inr ⟨dp, hdp, ?_⟩
      simp [hdp]

/-- C1 amended: for a page processed by _check_monitored_pages with a
non-empty fetched body, (a) whenever _check_page_data yields an event
(first run, or timestamp present and differing from the stored seen
entry with a changed content hash), the stored content hash is
refreshed to the MD5 hex digest of the body — whether or not a message
is eventually emitted; (b) whenever _check_page_data yields no event
(in particular when the fetched timestamp equals the stored seen
timestamp), the page is skipped entirely and nothing is refreshed; and
(c) for a non-initial event the outbound event is appended only when a
truthy diff preview survives normalization — otherwise the hash was
refreshed (by a) yet the events list is unchanged. -/
theorem check_step_C1_amended (p_name : String) (p_data : PageData)
    (state : State) (cfg : Config)
    (snapshots upd : List (String × PageSnapshot)) (events : List Event)
    (pc : String) (hpc : p_data.source = some pc) (hne : pc ≠ "") :
    (∀ e, _check_page_data p_name p_data state cfg = some e →
      (_check_monitored_pages_step p_name p_data state cfg snapshots upd
          events).state.content_hashes.lookup ("content_" ++ p_name) =
        some (md5Hex pc)) ∧
    (_check_page_data p_name p_data state cfg = none →
      _check_monitored_pages_step p_name p_data state cfg snapshots upd
          events = ⟨state, upd, events⟩) ∧
    (∀ e, _check_page_data p_name p_data state cfg = some e →
      e.is_initial = false →
      ((_check_monitored_pages_step p_name p_data state cfg snapshots upd
          events).events = events ∨
       ∃ dp, dp ≠ "" ∧
         (_check_monitored_pages_step p_name p_data state cfg snapshots upd
            events).events = events ++
           [{ title := e.title, url := e.url, page_name := e.page_name,
              date := e.date, diff_preview := some dp,
              is_initial := e.is_initial }])) := by
  refine ⟨?_, ?_, ?_⟩
  · intro e he
    simp only [_check_monitored_pages_step, he, hpc, if_neg hne]
    exact assocSet_lookup_self _ _ _
  · intro he
    simp only [_check_monitored_pages_step, he]
  · intro e he hinit
    simp only [_check_monitored_pages_step, he, hpc, if_neg hne, hinit,
      Bool.false_or]
    exact eventsAppendCases events e _

/-- State for the C1 witness: page P seen at T1, hash of the old body
stored. -/
def stC1w : State :=
  { seen := [("page/P", "T1")], updated_at := none,
    content_hashes := [("content_P", md5Hex "//old")],
    dynamic_monitored_pages := [] }

/-- Fetched data for the C1 witness: new timestamp, new body that is a
comment-only line (so the normalized diff has no surviving lines). -/
def pdC1w : PageData :=
  { page := some "P", timestamp := some "T2", source := some "//new" }

/-- Snapshots for the C1 witness: the previous body of P. -/
def snapsC1w : List (String × PageSnapshot) :=
  [("P", { page_name := "P", content := "//old", timestamp := some "T1" })]

/-- The update event _check_page_data yields in the C1 witness. -/
def evC1w : Event :=
  { title := Emoji.update ++ " 【P】 が更新されました。", url := "P",
    page_name := "P", date := some "T2" }

/-- C1 witness: in the claimed scenario (body changed, only comment
lines differ) the amended theorem applies: the stored hash is refreshed
to the MD5 of the new body, and the events list stays empty. -/
theorem check_step_C1_witness :
    pdC1w.source = some "//new" ∧ "//new" ≠ "" ∧
    _check_page_data "P" pdC1w stC1w {} = some evC1w ∧
    (_check_monitored_pages_step "P" pdC1w stC1w {} snapsC1w []
        []).state.content_hashes.lookup "content_P" = some (md5Hex "//new") ∧
    (_check_monitored_pages_step "P" pdC1w stC1w {} snapsC1w [] []).events
      = [] := by
  refine ⟨rfl, by decide, by decide, ?_, by decide⟩
  exact (check_step_C1_amended "P" pdC1w stC1w {} snapsC1w [] [] "//new"
    rfl (by decide)).1 evC1w (by decide)

/-! ## Claim C9: preview width bound and link-token preservation -/

/-- Total display width of the non-link parts of an assembled preview
(link tokens are excluded from the budget). -/
def nonLinkWidth (l : List String) : Nat :=
  (l.map (fun p => if isLinkToken p then 0 else _get_display_width p.data)).sum

/-- The truncation loop never exceeds the remaining budget. -/
theorem truncateChars_width (remaining : Nat) (l : List Char) :
    ∀ current, current + _get_display_width (truncateChars remaining current l)
      ≤ max remaining current := by
  induction l with
  | nil =>
    intro current
    simp [truncateChars, _get_display_width, Nat.le_max_right]
  | cons c cs ih =>
    intro current
    by_cases h : current + (if c.toNat > 127 then 2 else 1) > remaining
    · simp only [truncateChars, if_pos h]
      simp [_get_display_width, Nat.le_max_right]
    · simp only [truncateChars, if_neg h]
      have h2 := ih (current + (if c.toNat > 127 then 2 else 1))
      simp only [_get_display_width, List.map_cons, List.sum_cons] at h2 ⊢
      push_neg at h
      have hmax : max remaining (current + (if c.toNat > 127 then 2 else 1))
          = remaining := Nat.max_eq_left h
      rw [hmax] at h2
      omega

/-- The width of the non-link output of the assembly loop is bounded by
the remaining budget. -/
theorem previewLoop_width (max_chars : Nat) :
    ∀ (parts : List String) (char_count : Nat),
      nonLinkWidth (previewLoop max_chars parts char_count) ≤
        max_chars - char_count := by
  intro parts
  induction parts with
  | nil => intro cc; simp [previewLoop, nonLinkWidth]
  | cons part rest ih =>
    intro cc
    by_cases hlink : isLinkToken part
    · simp only [previewLoop, if_pos hlink, nonLinkWidth, List.map_cons,
        List.sum_cons, hlink, if_true]
      simpa [nonLinkWidth] using ih cc
    · simp only [previewLoop, if_neg hlink]
      by_cases hcc : cc < max_chars
      · simp only [if_pos hcc]
        by_cases hpw : _get_display_width part.data > max_chars - cc
        · simp only [if_pos hpw, nonLinkWidth, List.map_cons, List.sum_cons]
          have htr := truncateChars_width (max_chars - cc)
            part.data 0
          simp only [Nat.zero_add, Nat.max_eq_left (Nat.zero_le _)] at htr
          have hrest := ih max_chars
          simp only [nonLinkWidth] at hrest
          have hterm : (if isLinkToken (String.mk (truncateChars
              (max_chars - cc) 0 part.data)) = true then 0
            else _get_display_width (truncateChars
              (max_chars - cc) 0 part.data)) ≤
              _get_display_width (truncateChars (max_chars - cc) 0
                part.data) := by
            split
            · exact Nat.zero_le _
            · exact Nat.le_refl _
          omega
        · simp only [if_neg hpw, nonLinkWidth, List.map_cons, List.sum_cons]
          push_neg at hpw
          have hrest := ih (cc + _get_display_width part.data)
          simp only [nonLinkWidth] at hrest
          have hterm : (if isLinkToken part then 0
              else _get_display_width part.data) ≤
              _get_display_width part.data := by
            split
            · exact Nat.zero_le _
            · exact Nat.le_refl _
          omega
      · simp only [if_neg hcc, nonLinkWidth, List.map_cons, List.sum_cons]
        simpa [nonLinkWidth] using ih cc

/-- Link-token parts are always appended whole. -/
theorem previewLoop_link_mem (max_chars : Nat) :
    ∀ (parts : List String) (char_count : Nat) (p : String), p ∈ parts →
      isLinkToken p = true → p ∈ previewLoop max_chars parts char_count := by
  intro parts
  induction parts with
  | nil => intro cc p hp; simp at hp
  | cons part rest ih =>
    intro cc p hp hlp
    rcases List.mem_cons.mp hp with heq | hmem
    · subst heq
      simp [previewLoop, hlp]
    · by_cases hlink : isLinkToken part
      · simp only [previewLoop, if_pos hlink]
        exact List.mem_cons_of_mem _ (ih cc p hmem hlp)
      · simp only [previewLoop, if_neg hlink]
        by_cases hcc : cc < max_chars
        · simp only [if_pos hcc]
          by_cases hpw : _get_display_width part.data > max_chars - cc
          · simp only [if_pos hpw]
            exact List.mem_cons_of_mem _ (ih max_chars p hmem hlp)
          · simp only [if_neg hpw]
            exact List.mem_cons_of_mem _
              (ih (cc + _get_display_width part.data) p hmem hlp)
        · simp only [if_neg hcc]
          exact ih cc p hmem hlp

/-- C9: the preview assembly never exceeds the display-width budget on
text outside preserved markdown-link tokens (wide characters counting
2), link-token parts are kept whole (never split at the truncation
point) and cost nothing, and every non-None result of
get_content_diff_preview is exactly the stripped join of that assembly
applied to the link-split first line. -/
theorem preview_width_C9 :
    (∀ max_chars parts char_count,
      nonLinkWidth (previewLoop max_chars parts char_count) ≤
        max_chars - char_count) ∧
    (∀ max_chars parts char_count p, p ∈ parts → isLinkToken p = true →
      p ∈ previewLoop max_chars parts char_count) ∧
    (∀ snap max_chars names p,
      get_content_diff_preview (some snap) max_chars names = some p →
      ∃ first_line,
        p = pyStrip (String.join (previewLoop max_chars
          (splitLinks first_line) 0))) := by
  refine ⟨fun mc parts cc => previewLoop_width mc parts cc,
    fun mc parts cc p hp hl => previewLoop_link_mem mc parts cc p hp hl, ?_⟩
  intro snap mc names p h
  rcases snap with ⟨pn, ct, ts, diff⟩
  rcases diff with _ | d
  · simp [get_content_diff_preview] at h
  · simp only [get_content_diff_preview] at h
    split at h
    · simp at h
    · split at h
      · simp at h
      · split at h
        · simp at h
        · split at h
          · simp at h
          · exact ⟨_, (Option.some.inj h).symm⟩

/-- Snapshot for the C9 witness: a diff of wide (CJK) characters. -/
def snapC9 : PageSnapshot :=
  { page_name := "P", content := "c", timestamp := none,
    diff := some "+あいうえおかきくけこ" }

/-- C9 witness: the width bound at budget 7 on a wide-character part,
link-token preservation at budget 0, and the preview connection on a
concrete CJK snapshot whose preview truncates to width 6. -/
theorem preview_width_C9_witness :
    nonLinkWidth (previewLoop 7 ["あいうえおかきくけこ"] 0) ≤ 7 - 0 ∧
    "[a](b)" ∈ previewLoop 0 ["", "[a](b)", "xy"] 0 ∧
    (∃ first_line, "あいう" = pyStrip (String.join (previewLoop 7
      (splitLinks first_line) 0))) := by
  refine ⟨preview_width_C9.1 7 ["あいうえおかきくけこ"] 0,
    preview_width_C9.2.1 0 ["", "[a](b)", "xy"] 0 "[a](b)"
      (by decide) (by decide),
    preview_width_C9.2.2 snapC9 7 none "あいう" (by decide)⟩


/-! ## Claim C6: pruning the seen map -/

/-- pyStrLtL is irreflexive. -/
theorem pyStrLtL_irrefl : ∀ l, pyStrLtL l l = false := by
  intro l
  induction l with
  | nil => rfl
  | cons c cs ih => simp [pyStrLtL, ih]

/-- pyStrLtL is transitive. -/
theorem pyStrLtL_trans :
    ∀ a b c, pyStrLtL a b = true → pyStrLtL b c = true →
      pyStrLtL a c = true := by
  intro a
  induction a with
  | nil =>
    intro b c h1 h2
    cases b with
    | nil => simp [pyStrLtL] at h1
    | cons y bs =>
      cases c with
      | nil => simp [pyStrLtL] at h2
      | cons z cs => simp [pyStrLtL]
  | cons x xs ih =>
    intro b c h1 h2
    cases b with
    | nil => simp [pyStrLtL] at h1
    | cons y bs =>
      cases c with
      | nil => simp [pyStrLtL] at h2
      | cons z cs =>
        simp only [pyStrLtL] at h1 h2 ⊢
        by_cases hxy : x.toNat < y.toNat
        · by_cases hyz : y.toNat < z.toNat
          · simp [show x.toNat < z.toNat from lt_trans hxy hyz]
          · rw [if_neg hyz] at h2
            by_cases hzy : z.toNat < y.toNat
            · rw [if_pos hzy] at h2
              exact absurd h2 (by simp)
            · simp [show x.toNat < z.toNat by omega]
        · rw [if_neg hxy] at h1
          by_cases hyx : y.toNat < x.toNat
          · rw [if_pos hyx] at h1
            exact absurd h1 (by simp)
          · rw [if_neg hyx] at h1
            by_cases hyz : y.toNat < z.toNat
            · simp [show x.toNat < z.toNat by omega]
            · rw [if_neg hyz] at h2
              by_cases hzy : z.toNat < y.toNat
              · rw [if_pos hzy] at h2
                exact absurd h2 (by simp)
              · rw [if_neg hzy] at h2
                rw [if_neg (by omega : ¬ x.toNat < z.toNat),
                  if_neg (by omega : ¬ z.toNat < x.toNat)]
                exact ih bs cs h1 h2

/-- pyStrLtL is connex: distinct lists compare one way or the other. -/
theorem pyStrLtL_connex :
    ∀ a b : List Char, a = b ∨ pyStrLtL a b = true ∨ pyStrLtL b a = true := by
  intro a
  induction a with
  | nil =>
    intro b
    cases b with
    | nil => exact Or.inl rfl
    | cons y bs => exact Or.inr (Or.inl (by simp [pyStrLtL]))
  | cons x xs ih =>
    intro b
    cases b with
    | nil => exact Or.inr (Or.inr (by simp [pyStrLtL]))
    | cons y bs =>
      by_cases hxy : x.toNat < y.toNat
      · exact Or.inr (Or.inl (by simp [pyStrLtL, hxy]))
      · by_cases hyx : y.toNat < x.toNat
        · exact Or.inr (Or.inr (by simp [pyStrLtL, hyx]))
        · have hxyeq : x = y :=
            Char.ext (UInt32.toNat.inj (by omega : x.toNat = y.toNat))
          subst hxyeq
          rcases ih bs with h | h | h
          · exact Or.inl (by rw [h])
          · exact Or.inr (Or.inl (by simp [pyStrLtL, h]))
          · exact Or.inr (Or.inr (by simp [pyStrLtL, h]))

/-- Transitivity of the not-less ordering. -/
theorem pyStrLtL_le_trans (a b c : List Char) (hba : pyStrLtL b a = false)
    (hcb : pyStrLtL c b = false) : pyStrLtL c a = false := by
  rcases hlt : pyStrLtL c a with _ | _
  · rfl
  · exfalso
    rcases pyStrLtL_connex b a with h | h | h
    · rw [h] at hcb
      rw [hcb] at hlt
      exact absurd hlt (by simp)
    · rw [h] at hba
      exact absurd hba (by simp)
    · have := pyStrLtL_trans _ _ _ hlt h
      rw [this] at hcb
      exact absurd hcb (by simp)

/-- The not-less ordering is total. -/
theorem pyStrLtL_le_total (a b : List Char) :
    pyStrLtL b a = false ∨ pyStrLtL a b = false := by
  rcases pyStrLtL_connex a b with h | h | h
  · left
    rw [h, pyStrLtL_irrefl]
  · left
    rcases hba : pyStrLtL b a with _ | _
    · rfl
    · have := pyStrLtL_trans _ _ _ h hba
      rw [pyStrLtL_irrefl] at this
      exact absurd this (by simp)
  · right
    rcases hab : pyStrLtL a b with _ | _
    · rfl
    · have := pyStrLtL_trans _ _ _ h hab
      rw [pyStrLtL_irrefl] at this
      exact absurd this (by simp)

/-- pruneRel is total. -/
theorem pruneRel_total (seen : List (String × String)) (a b : String) :
    pruneRel seen a b ∨ pruneRel seen b a := by
  unfold pruneRel
  simp only [pyStrLe, pyStrLt, Bool.not_eq_true']
  rcases pyStrLtL_le_total ((seen.lookup a).getD "").data
    ((seen.lookup b).getD "").data with h | h
  · exact Or.inl h
  · exact Or.inr h

/-- pruneRel is transitive. -/
theorem pruneRel_trans (seen : List (String × String)) (a b c : String)
    (hab : pruneRel seen a b) (hbc : pruneRel seen b c) :
    pruneRel seen a c := by
  unfold pruneRel at hab hbc ⊢
  simp only [pyStrLe, pyStrLt, Bool.not_eq_true'] at hab hbc ⊢
  exact pyStrLtL_le_trans _ _ _ hab hbc

instance (seen : List (String × String)) : IsTotal String (pruneRel seen) :=
  ⟨pruneRel_total seen⟩

instance (seen : List (String × String)) : IsTrans String (pruneRel seen) :=
  ⟨pruneRel_trans seen⟩

/-- Lookup in a map with nodup keys finds the paired value. -/
theorem lookup_eq_of_nodup_mem (seen : List (String × String))
    (k v : String) (hnd : (seen.map Prod.fst).Nodup)
    (hmem : (k, v) ∈ seen) : seen.lookup k = some v := by
  induction seen with
  | nil => simp at hmem
  | cons p rest ih =>
    rcases p with ⟨k1, v1⟩
    simp only [List.map_cons, List.nodup_cons] at hnd
    rcases List.mem_cons.mp hmem with heq | hmem2
    · have hk1 : k1 = k := congrArg Prod.fst heq.symm
      have hv1 : v1 = v := congrArg Prod.snd heq.symm
      subst hk1
      subst hv1
      simp [List.lookup]
    · have hk : k ≠ k1 := by
        intro h
        subst h
        exact hnd.1 (List.mem_map.mpr ⟨(k, v), hmem2, rfl⟩)
      have hbeq : (k == k1) = false := beq_eq_false_iff_ne.mpr hk
      simp only [List.lookup, hbeq]
      exact ih hnd.2 hmem2

/-- C6: for a seen map of 5001 entries with distinct keys and a unique
smallest timestamp value, prune_state with max_items 5000 removes
exactly that single entry, leaving the other 5000 entries in place with
unchanged values; and in the cycle the cap is applied after the
monitoring-set cleanup (run applies prune_state to the first component
of clean_monitored_state of the event-updated seen map). -/
theorem prune_state_C6 (seen : List (String × String)) (k v : String)
    (hlen : seen.length = 5001)
    (hnd : (seen.map Prod.fst).Nodup)
    (hmem : (k, v) ∈ seen)
    (hmin : ∀ p ∈ seen, p.1 ≠ k → pyStrLt v p.2 = true) :
    prune_state seen 5000 = seen.filter (fun p => p.1 != k) ∧
    (∀ state events cfg,
      run_state_cleanup state events cfg =
        (prune_state (clean_monitored_state (run_updated_seen state events)
          state.content_hashes cfg state).1 5000,
         (clean_monitored_state (run_updated_seen state events)
          state.content_hashes cfg state).2)) := by
  constructor
  · have hgt : ¬ seen.length ≤ 5000 := by omega
    simp only [prune_state, if_neg hgt]
    have hperm := List.perm_insertionSort (pruneRel seen) (seen.map Prod.fst)
    have hsorted := List.sorted_insertionSort (pruneRel seen)
      (seen.map Prod.fst)
    have hslen :
        (List.insertionSort (pruneRel seen) (seen.map Prod.fst)).length
          = 5001 := by
      rw [hperm.length_eq, List.length_map, hlen]
    rcases hs : List.insertionSort (pruneRel seen) (seen.map Prod.fst)
      with _ | ⟨h, t⟩
    · rw [hs] at hslen
      simp at hslen
    · have hhk : h = k := by
        by_contra hne
        have hkm : k ∈ seen.map Prod.fst :=
          List.mem_map.mpr ⟨(k, v), hmem, rfl⟩
        have hks : k ∈ h :: t := by
          rw [← hs]
          exact hperm.mem_iff.mpr hkm
        have hkt : k ∈ t := by
          rcases List.mem_cons.mp hks with he | ht
          · exact absurd he.symm hne
          · exact ht
        have hrel : pruneRel seen h k := by
          rw [hs] at hsorted
          exact List.rel_of_sorted_cons hsorted k hkt
        have hhm : h ∈ seen.map Prod.fst := by
          have hmem0 : h ∈ h :: t := List.mem_cons_self h t
          rw [← hs] at hmem0
          exact hperm.mem_iff.mp hmem0
        obtain ⟨⟨hk1, hv1⟩, hpm, hfst⟩ := List.mem_map.mp hhm
        simp only at hfst
        subst hfst
        have hlh : seen.lookup hk1 = some hv1 :=
          lookup_eq_of_nodup_mem seen hk1 hv1 hnd hpm
        have hlk : seen.lookup k = some v :=
          lookup_eq_of_nodup_mem seen k v hnd hmem
        have hlt : pyStrLt v hv1 = true := hmin (hk1, hv1) hpm hne
        unfold pruneRel at hrel
        rw [hlh, hlk] at hrel
        simp only [Option.getD_some, pyStrLe, pyStrLt,
          Bool.not_eq_true'] at hrel
        simp only [pyStrLt] at hlt
        rw [hrel] at hlt
        exact absurd hlt (by simp)
      subst hhk
      have htake : (seen.map Prod.fst).length - 5000 = 1 := by
        rw [List.length_map, hlen]
      rw [htake]
      simp only [List.take_succ_cons, List.take_zero]
      apply List.filter_congr
      intro p _
      rcases hbe : p.1 == h with _ | _ <;>
        simp [List.contains, List.elem, hbe, bne]
  · intro state events cfg
    rfl

/-- Key generator for the C6 witness (injective by length). -/
def keyC6 (i : Nat) : String := String.mk (List.replicate i 'x')

/-- A 5001-entry seen map whose first entry has the unique smallest
timestamp value. -/
def seenC6 : List (String × String) :=
  (List.range 5001).map (fun i => (keyC6 i, if i = 0 then "a" else "b"))

/-- C6 witness: the prune theorem applied to the concrete 5001-entry
map removes exactly the unique-minimum entry. -/
theorem prune_state_C6_witness :
    seenC6.length = 5001 ∧ (keyC6 0, "a") ∈ seenC6 ∧
    prune_state seenC6 5000 = seenC6.filter (fun p => p.1 != keyC6 0) := by
  have hlen : seenC6.length = 5001 := by
    simp [seenC6]
  have hinj : Function.Injective keyC6 := by
    intro i j hij
    have := congrArg (fun s => s.data.length) hij
    simpa [keyC6] using this
  have hnd : (seenC6.map Prod.fst).Nodup := by
    have : seenC6.map Prod.fst = (List.range 5001).map keyC6 := by
      simp [seenC6, Function.comp]
    rw [this]
    exact (List.nodup_range 5001).map hinj
  have hmem : (keyC6 0, "a") ∈ seenC6 := by
    have h0 : (0 : Nat) ∈ List.range 5001 := List.mem_range.mpr (by omega)
    have hm : ((fun i => (keyC6 i, if i = 0 then "a" else "b")) 0) ∈
        (List.range 5001).map (fun i => (keyC6 i, if i = 0 then "a" else "b")) :=
      List.mem_map_of_mem _ h0
    simpa [seenC6] using hm
  have hmin : ∀ p ∈ seenC6, p.1 ≠ keyC6 0 → pyStrLt "a" p.2 = true := by
    intro p hp hne
    obtain ⟨i, hi, hpe⟩ := List.mem_map.mp hp
    have hi0 : i ≠ 0 := by
      intro h
      subst h
      rw [← hpe] at hne
      exact hne rfl
    rw [← hpe]
    simp only [if_neg hi0]
    decide
  exact ⟨hlen, hmem,
    (prune_state_C6 seenC6 (keyC6 0) "a" hlen hnd hmem hmin).1⟩

/-! ## Claim C8: bullet stripping versus the surrounding rules -/

/-- The scan result does not depend on the fuel once it covers the
input length. -/
theorem scanSubGo_congr (try_ : List Char → Option (List Char × Nat)) :
    ∀ (f1 f2 : Nat) (l : List Char), l.length ≤ f1 → l.length ≤ f2 →
      scanSubGo try_ f1 l = scanSubGo try_ f2 l := by
  intro f1
  induction f1 with
  | zero =>
    intro f2 l h1 _
    have hl : l = [] := List.eq_nil_of_length_eq_zero (Nat.le_zero.mp h1)
    subst hl
    cases f2 <;> rfl
  | succ f1 ih =>
    intro f2 l h1 h2
    cases l with
    | nil => cases f2 <;> rfl
    | cons c cs =>
      cases f2 with
      | zero => exact absurd h2 (by simp)
      | succ f2 =>
        have hc1 : cs.length ≤ f1 := by
          simp only [List.length_cons] at h1
          omega
        have hc2 : cs.length ≤ f2 := by
          simp only [List.length_cons] at h2
          omega
        simp only [scanSubGo]
        cases htry : try_ (c :: cs) with
        | none =>
          simp only [htry]
          rw [ih f2 cs hc1 hc2]
        | some pr =>
          rcases pr with ⟨repl, extra⟩
          have hd1 : (cs.drop extra).length ≤ f1 := by
            simp only [List.length_drop]
            omega
          have hd2 : (cs.drop extra).length ≤ f2 := by
            simp only [List.length_drop]
            omega
          simp only [htry]
          rw [ih f2 (cs.drop extra) hd1 hd2]

/-- Unfolding equation of scanSub when the pattern fails at the head. -/
theorem scanSub_cons_none (try_ : List Char → Option (List Char × Nat))
    (c : Char) (cs : List Char) (h : try_ (c :: cs) = none) :
    scanSub try_ (c :: cs) = c :: scanSub try_ cs := by
  unfold scanSub
  simp only [List.length_cons, scanSubGo, h]

/-- Unfolding equation of scanSub when the pattern matches at the head. -/
theorem scanSub_cons_some (try_ : List Char → Option (List Char × Nat))
    (c : Char) (cs : List Char) (repl : List Char) (extra : Nat)
    (h : try_ (c :: cs) = some (repl, extra)) :
    scanSub try_ (c :: cs) = repl ++ scanSub try_ (cs.drop extra) := by
  unfold scanSub
  simp only [List.length_cons, scanSubGo, h]
  exact congrArg (repl ++ ·)
    (scanSubGo_congr try_ cs.length (cs.drop extra).length (cs.drop extra)
      (by simp only [List.length_drop]; omega) (le_refl _))

/-- scanSub copies a dash-space head verbatim when the pattern fails on
both suffixes starting inside it. -/
theorem scanSub_dash_space (try_ : List Char → Option (List Char × Nat))
    (t : List Char) (h1 : try_ ('-' :: ' ' :: t) = none)
    (h2 : try_ (' ' :: t) = none) :
    scanSub try_ ('-' :: ' ' :: t) = '-' :: ' ' :: scanSub try_ t := by
  rw [scanSub_cons_none try_ '-' (' ' :: t) h1, scanSub_cons_none try_ ' ' t h2]

theorem scanSub_q2_ds (t : List Char) :
    scanSub tryQuotes2 ('-' :: ' ' :: t) = '-' :: ' ' :: scanSub tryQuotes2 t :=
  scanSub_dash_space tryQuotes2 t rfl rfl

theorem scanSub_cbrace_ds (t : List Char) :
    scanSub tryColorBrace ('-' :: ' ' :: t)
      = '-' :: ' ' :: scanSub tryColorBrace t :=
  scanSub_dash_space tryColorBrace t rfl rfl

theorem scanSub_cbare_ds (t : List Char) :
    scanSub tryColorBare ('-' :: ' ' :: t)
      = '-' :: ' ' :: scanSub tryColorBare t :=
  scanSub_dash_space tryColorBare t rfl rfl

theorem scanSub_sbrace_ds (t : List Char) :
    scanSub trySizeBrace ('-' :: ' ' :: t)
      = '-' :: ' ' :: scanSub trySizeBrace t :=
  scanSub_dash_space trySizeBrace t rfl rfl

theorem scanSub_sbare_ds (t : List Char) :
    scanSub trySizeBare ('-' :: ' ' :: t)
      = '-' :: ' ' :: scanSub trySizeBare t :=
  scanSub_dash_space trySizeBare t rfl rfl

theorem scanSub_amp_ds (t : List Char) :
    scanSub tryAmp ('-' :: ' ' :: t) = '-' :: ' ' :: scanSub tryAmp t :=
  scanSub_dash_space tryAmp t rfl rfl

theorem scanSub_strike_ds (t : List Char) :
    scanSub tryStrike ('-' :: ' ' :: t) = '-' :: ' ' :: scanSub tryStrike t :=
  scanSub_dash_space tryStrike t rfl rfl

theorem scanSub_under_ds (t : List Char) :
    scanSub tryUnderline ('-' :: ' ' :: t)
      = '-' :: ' ' :: scanSub tryUnderline t :=
  scanSub_dash_space tryUnderline t rfl rfl

theorem scanSub_braces_ds (t : List Char) :
    scanSub tryBraces ('-' :: ' ' :: t) = '-' :: ' ' :: scanSub tryBraces t :=
  scanSub_dash_space tryBraces t rfl rfl

/-- The anchor stage on a dash-space head: the dash is copied, and the
space either survives (no anchor follows) or is absorbed into the
anchor match; either way the tail scan is unchanged. -/
theorem scanSub_tryAnchor_dash_space (t : List Char) :
    scanSub tryAnchor ('-' :: ' ' :: t) = '-' :: ' ' :: scanSub tryAnchor t ∨
    scanSub tryAnchor ('-' :: ' ' :: t) = '-' :: scanSub tryAnchor t := by
  rw [scanSub_cons_none tryAnchor '-' (' ' :: t) rfl]
  have hsp : tryAnchor (' ' :: t)
      = (tryAnchor t).map (fun pr => (pr.1, pr.2 + 1)) := rfl
  cases htry : tryAnchor t with
  | none =>
    left
    have hz : tryAnchor (' ' :: t) = none := by rw [hsp, htry]; rfl
    rw [scanSub_cons_none tryAnchor ' ' t hz]
  | some pr =>
    right
    rcases pr with ⟨repl, extra⟩
    have hs : tryAnchor (' ' :: t) = some (repl, extra + 1) := by
      rw [hsp, htry]
      rfl
    rw [scanSub_cons_some tryAnchor ' ' t repl (extra + 1) hs]
    congr 1
    cases t with
    | nil => exact Option.noConfusion htry
    | cons c2 cs2 =>
      rw [scanSub_cons_some tryAnchor c2 cs2 repl extra htry,
        List.drop_succ_cons]

/-- The full markup chain on a dash-space head: the dash survives, the
space survives unless consumed by an anchor match, the rest is the
chain of the tail. -/
theorem markupStrip_dash_space (cl : List Char) :
    markupStrip ('-' :: ' ' :: cl) = '-' :: ' ' :: markupStrip cl ∨
    markupStrip ('-' :: ' ' :: cl) = '-' :: markupStrip cl := by
  simp only [markupStrip]
  rw [scanSub_q2_ds, scanSub_cbrace_ds, scanSub_cbare_ds, scanSub_sbrace_ds,
    scanSub_sbare_ds, scanSub_amp_ds, scanSub_strike_ds, scanSub_under_ds,
    scanSub_braces_ds]
  exact scanSub_tryAnchor_dash_space _

/-- A prefix test fails when already the head characters differ. -/
theorem startsWithL_cons_ne (c d : Char) (r ps : List Char)
    (hcd : (c == d) = false) :
    startsWithL (c :: r) (d :: ps) = false := by
  have h1 : startsWithL (c :: r) (d :: ps)
      = ((c == d) && (r.take ps.length == ps)) := rfl
  rw [h1, hcd, Bool.false_and]

/-- The br-paren pattern fails on a whitespace head. -/
theorem tryBrParen_space (c : Char) (r : List Char)
    (hc : isPySpace c = true) : tryBrParen (c :: r) = none := by
  have hne : (c == '&') = false := by
    rcases heq : c == '&' with _ | _
    · rfl
    · have hc8 : c = '&' := eq_of_beq heq
      rw [hc8] at hc
      exact absurd hc (by decide)
  have hd : "&br()".data = '&' :: ['b', 'r', '(', ')'] := rfl
  unfold tryBrParen
  rw [hd, startsWithL_cons_ne c '&' r ['b', 'r', '(', ')'] hne]
  rfl

/-- The br-semicolon pattern fails on a whitespace head. -/
theorem tryBrSemi_space (c : Char) (r : List Char)
    (hc : isPySpace c = true) : tryBrSemi (c :: r) = none := by
  have hne : (c == '&') = false := by
    rcases heq : c == '&' with _ | _
    · rfl
    · have hc8 : c = '&' := eq_of_beq heq
      rw [hc8] at hc
      exact absurd hc (by decide)
  have hd : "&br;".data = '&' :: ['b', 'r', ';'] := rfl
  unfold tryBrSemi
  rw [hd, startsWithL_cons_ne c '&' r ['b', 'r', ';'] hne]
  rfl

/-- Left strip keeps a non-space head. -/
theorem pyLstrip_cons_nonspace (c : Char) (l : List Char)
    (hc : isPySpace c = false) : pyLstrip (c :: l) = c :: l := by
  unfold pyLstrip
  rw [List.dropWhile_cons]
  simp [hc]

/-- Left strip over an all-space prefix skips it. -/
theorem pyLstrip_space_append (sp t : List Char)
    (hsp : ∀ c ∈ sp, isPySpace c = true) :
    pyLstrip (sp ++ t) = pyLstrip t := by
  induction sp with
  | nil => rfl
  | cons x xs ih =>
    have hx : pyLstrip (x :: (xs ++ t)) = pyLstrip (xs ++ t) := by
      unfold pyLstrip
      rw [List.dropWhile_cons, hsp x (List.mem_cons_self x xs)]
      rw [if_pos rfl]
    rw [List.cons_append, hx,
      ih (fun c hc => hsp c (List.mem_cons_of_mem x hc))]

/-- Splitting a list at its leading whitespace run. -/
theorem takeWhile_append_dropWhile_eq (p : Char → Bool) (l : List Char) :
    l.takeWhile p ++ l.dropWhile p = l := by
  induction l with
  | nil => rfl
  | cons c r ih =>
    rcases hc : p c with _ | _ <;>
      simp [List.takeWhile_cons, List.dropWhile_cons, hc, ih]

/-- scanSub copies an all-space prefix verbatim when the pattern fails
on every whitespace head. -/
theorem scanSub_space_head (try_ : List Char → Option (List Char × Nat))
    (htry : ∀ c r, isPySpace c = true → try_ (c :: r) = none)
    (sp t : List Char) (hsp : ∀ c ∈ sp, isPySpace c = true) :
    scanSub try_ (sp ++ t) = sp ++ scanSub try_ t := by
  induction sp with
  | nil => simp
  | cons x xs ih =>
    rw [List.cons_append,
      scanSub_cons_none try_ x (xs ++ t)
        (htry x (xs ++ t) (hsp x (List.mem_cons_self x xs))),
      ih (fun c hc => hsp c (List.mem_cons_of_mem x hc)), List.cons_append]

/-- The leading-star rule is the identity on a whitespace head. -/
theorem starSub_of_head_space (c : Char) (r : List Char)
    (hc : isPySpace c = true) : starSub (c :: r) = c :: r := by
  have hne : (decide (c = '*')) = false := by
    apply decide_eq_false
    intro he
    rw [he] at hc
    exact absurd hc (by decide)
  simp only [starSub, List.takeWhile_cons, hne]
  simp

/-- The leading-star rule is the identity when there is no leading
star. -/
theorem starSub_of_no_star (l : List Char)
    (h : l.takeWhile (fun c => c = '*') = []) : starSub l = l := by
  simp only [starSub, h]
  simp

/-- The tail of the normalisation chain ignores an all-space prefix as
long as the left-stripped remainder does not begin with a star after
the br-macro removals. -/
theorem normalizeTail_space_head (sp q : List Char)
    (hsp : ∀ c ∈ sp, isPySpace c = true)
    (hstar : (scanSub tryBrSemi (scanSub tryBrParen q)).takeWhile
        (fun c => c = '*') = []) :
    normalizeTail (sp ++ q) = normalizeTail q := by
  have key : pyStripL (starSub (sp ++ scanSub tryBrSemi (scanSub tryBrParen q)))
      = pyStripL (starSub (scanSub tryBrSemi (scanSub tryBrParen q))) := by
    cases sp with
    | nil => simp
    | cons c sp2 =>
      have hc : isPySpace c = true := hsp c (List.mem_cons_self c sp2)
      rw [List.cons_append,
        starSub_of_head_space c
          (sp2 ++ scanSub tryBrSemi (scanSub tryBrParen q)) hc,
        starSub_of_no_star (scanSub tryBrSemi (scanSub tryBrParen q)) hstar]
      unfold pyStripL
      rw [show (c :: (sp2 ++ scanSub tryBrSemi (scanSub tryBrParen q)))
          = (c :: sp2) ++ scanSub tryBrSemi (scanSub tryBrParen q) from rfl,
        pyLstrip_space_append (c :: sp2)
          (scanSub tryBrSemi (scanSub tryBrParen q)) hsp]
  simp only [normalizeTail]
  rw [scanSub_space_head tryBrParen tryBrParen_space sp q hsp,
    scanSub_space_head tryBrSemi tryBrSemi_space sp (scanSub tryBrParen q) hsp,
    key]

/-- Left strip distributes over a trailing dash singleton. -/
theorem pyLstrip_append_dash (xs : List Char) :
    pyLstrip (xs ++ ['-']) = pyLstrip xs ++ ['-'] := by
  unfold pyLstrip
  rw [List.dropWhile_append]
  split
  · rename_i h
    have h2 : List.dropWhile isPySpace xs = [] := by
      simpa [List.isEmpty_iff] using h
    rw [h2]
    rfl
  · rfl

/-- Full strip of a dash-headed list keeps the dash and right-strips
the rest. -/
theorem pyStripL_cons_dash (l : List Char) :
    pyStripL ('-' :: l) = '-' :: pyRstrip l := by
  unfold pyStripL
  rw [pyLstrip_cons_nonspace '-' l (by decide)]
  unfold pyRstrip
  rw [List.reverse_cons, pyLstrip_append_dash, List.reverse_append]
  rfl

/-- A dash-space-headed line passes every drop check. -/
theorem normalizeKept_dash_space (cl : List Char) :
    normalizeKept ('-' :: ' ' :: cl) = true := by
  have hL : pyLstrip ('-' :: ' ' :: cl) = '-' :: ' ' :: cl :=
    pyLstrip_cons_nonspace '-' (' ' :: cl) (by decide)
  have hS : pyStripL ('-' :: ' ' :: cl) = '-' :: pyRstrip (' ' :: cl) :=
    pyStripL_cons_dash (' ' :: cl)
  unfold normalizeKept
  rw [hL, hS]
  have h2 : startsWithL ('-' :: ' ' :: cl) "//".data = false := rfl
  have h3 : startsWithL ('-' :: ' ' :: cl) "|".data = false := rfl
  have h5 : startsWithL ('-' :: ' ' :: cl) "#".data = false := rfl
  rw [h2, h3, h5]
  simp [show "#br".data = ['#', 'b', 'r'] from rfl,
    show "#br;".data = ['#', 'b', 'r', ';'] from rfl]

/-- Bullet stripping on a dash-space head drops the marker and the
following whitespace. -/
theorem bulletSub_dash_space (u : List Char) :
    bulletSub ('-' :: ' ' :: u) = pyLstrip u := by
  simp only [bulletSub]
  rw [pyLstrip_cons_nonspace '-' (' ' :: u) (by decide)]
  have h2 : startsWithL ('-' :: ' ' :: u) "--".data = false := rfl
  have h1 : startsWithL ('-' :: ' ' :: u) "-".data = true := rfl
  rw [h2, h1, if_neg (by decide : ¬ (false = true)), if_pos rfl]
  show (' ' :: u).dropWhile isPySpace = pyLstrip u
  rw [List.dropWhile_cons, if_pos (by decide : isPySpace ' ' = true)]
  rfl

/-- Bullet stripping on a bare dash head, when what follows is not a
second dash, drops the dash and the following whitespace. -/
theorem bulletSub_dash (u : List Char)
    (hb : startsWithL (pyLstrip u) "-".data = false) :
    bulletSub ('-' :: u) = pyLstrip u := by
  simp only [bulletSub]
  rw [pyLstrip_cons_nonspace '-' u (by decide)]
  have h2 : startsWithL ('-' :: u) "--".data = false := by
    cases u with
    | nil => rfl
    | cons c2 u2 =>
      have he : startsWithL ('-' :: c2 :: u2) "--".data
          = ((c2 == '-') && true) := rfl
      rw [he, Bool.and_true]
      rcases hbe : c2 == '-' with _ | _
      · rfl
      · exfalso
        have hc2 : c2 = '-' := eq_of_beq hbe
        rw [hc2] at hb
        rw [pyLstrip_cons_nonspace '-' u2 (by decide)] at hb
        have hone : startsWithL ('-' :: u2) "-".data = true := rfl
        rw [hone] at hb
        exact Bool.noConfusion hb
  have h1 : startsWithL ('-' :: u) "-".data = true := rfl
  rw [h2, h1, if_neg (by decide : ¬ (false = true)), if_pos rfl]
  show u.dropWhile isPySpace = pyLstrip u
  rfl

/-- Bullet stripping is the identity when the left-stripped line does
not begin with a dash. -/
theorem bulletSub_no_dash (u : List Char)
    (hb : startsWithL (pyLstrip u) "-".data = false) :
    bulletSub u = u := by
  simp only [bulletSub]
  have h2 : startsWithL (pyLstrip u) "--".data = false := by
    cases hpl : pyLstrip u with
    | nil => rfl
    | cons c r =>
      rw [hpl] at hb
      have hb1 : (c == '-') = false := by
        have hsg : startsWithL (c :: r) "-".data = ((c == '-') && true) := rfl
        rw [hsg, Bool.and_true] at hb
        exact hb
      rw [show ("--".data : List Char) = '-' :: ['-'] from rfl]
      exact startsWithL_cons_ne c '-' r ['-'] hb1
  rw [h2, hb, if_neg (by decide : ¬ (false = true)),
    if_neg (by decide : ¬ (false = true))]

/-- C8: amended claim.  Prepending a dash-space bullet marker leaves
the normalised line unchanged provided the line passes the drop checks
(a dropped line gains content from the marker's remnant), the
markup-stripped line does not itself begin with a dash after left
stripping (else the added marker shields it), and either the
markup-stripped line has no leading whitespace or the stripped
remainder does not begin with a star after the br-macro removals (else
the marker's removal exposes the stars to the anchored star rule). -/
theorem normalize_bullet_C8 (s : String)
    (hkept : normalizeKept s.data = true)
    (hbul : startsWithL (pyLstrip (markupStrip s.data)) "-".data = false)
    (hstar : (markupStrip s.data).takeWhile isPySpace = [] ∨
      (scanSub tryBrSemi (scanSub tryBrParen
        (pyLstrip (markupStrip s.data)))).takeWhile (fun c => c = '*') = []) :
    _normalize_diff_line ("- " ++ s) = _normalize_diff_line s := by
  have tail_eq : normalizeTail (markupStrip s.data)
      = normalizeTail (pyLstrip (markupStrip s.data)) := by
    rcases hstar with hnil | hst
    · have h2 := takeWhile_append_dropWhile_eq isPySpace (markupStrip s.data)
      rw [hnil, List.nil_append] at h2
      show normalizeTail (markupStrip s.data)
        = normalizeTail ((markupStrip s.data).dropWhile isPySpace)
      rw [h2]
    · have h2 := takeWhile_append_dropWhile_eq isPySpace (markupStrip s.data)
      conv_lhs => rw [← h2]
      exact normalizeTail_space_head _ _
        (fun c hc => List.mem_takeWhile_imp hc) hst
  have hdata : ("- " ++ s).data = '-' :: ' ' :: s.data := by
    rw [String.data_append]
    rfl
  unfold _normalize_diff_line
  rw [hdata, normalizeKept_dash_space s.data, hkept]
  rw [if_pos rfl, if_pos rfl]
  rw [bulletSub_no_dash (markupStrip s.data) hbul]
  rcases markupStrip_dash_space s.data with hm | hm
  · rw [hm, bulletSub_dash_space (markupStrip s.data)]
    exact tail_eq.symm
  · rw [hm, bulletSub_dash (markupStrip s.data) hbul]
    exact tail_eq.symm

/-- C8 counterexample: three lines, none starting with a bullet
marker, on which prepending the marker changes the normalisation - a
comment line that is dropped bare but kept with the marker, a line
whose br-macro removal exposes a fresh dash that the marker shields,
and an indented star line that only loses its stars when the marker's
removal strips the indentation. -/
theorem normalize_bullet_C8_counterexample :
    _normalize_diff_line ("- " ++ "// a") ≠ _normalize_diff_line "// a" ∧
    _normalize_diff_line ("- " ++ "&br;- x") ≠ _normalize_diff_line "&br;- x" ∧
    _normalize_diff_line ("- " ++ "  * x") ≠ _normalize_diff_line "  * x" :=
  ⟨by decide, by decide, by decide⟩

/-- Witness for the amended C8 theorem at a plain line. -/
theorem normalize_bullet_C8_witness :
    _normalize_diff_line ("- " ++ "abc") = _normalize_diff_line "abc" :=
  normalize_bullet_C8 "abc" (by decide) (by decide) (Or.inl (by decide))

/-! ## Claim C2: toward emptiness of the unified diff.  Genuineness of
the matches found by the SequenceMatcher embedding. -/

section SequenceMatcherGenuine

variable {α : Type} [DecidableEq α]

/-- Entry-wise property of the position lists maintained by b2jAdd. -/
theorem b2jAdd_mem_prop (P : α → Nat → Prop) :
    ∀ (acc : List (α × List Nat)) (x : α) (j : Nat),
      (∀ y js, (y, js) ∈ acc → ∀ i ∈ js, P y i) → P x j →
      ∀ y js, (y, js) ∈ b2jAdd acc x j → ∀ i ∈ js, P y i := by
  intro acc
  induction acc with
  | nil =>
    intro x j _ hx y js hmem i hi
    simp only [b2jAdd, List.mem_singleton, Prod.mk.injEq] at hmem
    obtain ⟨rfl, rfl⟩ := hmem
    simp only [List.mem_singleton] at hi
    subst hi
    exact hx
  | cons hd rest ih =>
    intro x j hacc hx y js hmem i hi
    rcases hd with ⟨z, zs⟩
    simp only [b2jAdd] at hmem
    split at hmem
    · rename_i hxz
      rcases List.mem_cons.mp hmem with hh | ht
      · rw [Prod.mk.injEq] at hh
        obtain ⟨rfl, rfl⟩ := hh
        rcases List.mem_append.mp hi with hi1 | hi2
        · exact hacc y zs (List.mem_cons_self _ _) i hi1
        · rw [List.mem_singleton] at hi2
          subst hi2
          rw [hxz] at hx
          exact hx
      · exact hacc y js (List.mem_cons_of_mem _ ht) i hi
    · rcases List.mem_cons.mp hmem with hh | ht
      · rw [Prod.mk.injEq] at hh
        obtain ⟨rfl, rfl⟩ := hh
        exact hacc y js (List.mem_cons_self _ _) i hi
      · exact ih x j
          (fun y2 js2 hm => hacc y2 js2 (List.mem_cons_of_mem _ hm)) hx
          y js ht i hi

/-- Entry-wise property of the maps built by b2jBuild. -/
theorem b2jBuild_mem_prop (P : α → Nat → Prop) :
    ∀ (l : List α) (j0 : Nat) (acc : List (α × List Nat)),
      (∀ y js, (y, js) ∈ acc → ∀ i ∈ js, P y i) →
      (∀ t x, l.get? t = some x → P x (j0 + t)) →
      ∀ y js, (y, js) ∈ b2jBuild l j0 acc → ∀ i ∈ js, P y i := by
  intro l
  induction l with
  | nil =>
    intro j0 acc hacc _ y js hmem
    exact hacc y js hmem
  | cons c rest ih =>
    intro j0 acc hacc hl y js hmem
    refine ih (j0 + 1) (b2jAdd acc c j0) ?_ ?_ y js hmem
    · exact b2jAdd_mem_prop P acc c j0 hacc
        (by simpa using hl 0 c rfl)
    · intro t x hx
      have h2 := hl (t + 1) x hx
      rw [show j0 + (t + 1) = j0 + 1 + t by omega] at h2
      exact h2

/-- The autojunk filter only drops entries. -/
theorem b2j_sub (b : List α) (pr : α × List Nat) (h : pr ∈ b2j b) :
    pr ∈ b2jBuild b 0 [] := by
  simp only [b2j] at h
  split at h
  · exact (List.mem_filter.mp h).1
  · exact h

/-- Positions returned by b2jGet come from an entry of the map. -/
theorem b2jGet_mem (m : List (α × List Nat)) (x : α) (j : Nat)
    (h : j ∈ b2jGet m x) : ∃ js, (x, js) ∈ m ∧ j ∈ js := by
  induction m with
  | nil => simp [b2jGet] at h
  | cons hd rest ih =>
    rcases hd with ⟨z, zs⟩
    simp only [b2jGet] at h
    split at h
    · rename_i hxz
      subst hxz
      exact ⟨zs, List.mem_cons_self _ _, h⟩
    · rcases ih h with ⟨js, hm, hj⟩
      exact ⟨js, List.mem_cons_of_mem _ hm, hj⟩

/-- Every position of the b2j map points at its element. -/
theorem b2jGet_b2j_getq (b : List α) (x : α) (j : Nat)
    (h : j ∈ b2jGet (b2j b) x) : b.get? j = some x := by
  rcases b2jGet_mem (b2j b) x j h with ⟨js, hm, hj⟩
  exact b2jBuild_mem_prop (fun y i => b.get? i = some y) b 0 []
    (fun y js2 h2 => absurd h2 (List.not_mem_nil _))
    (fun t x2 hx2 => by rw [Nat.zero_add]; exact hx2)
    x js (b2j_sub b (x, js) hm) j hj

/-- End-anchored genuine common chain of length v finishing at row i,
column j. -/
def chainEndG (a b : List α) (alo blo i j v : Nat) : Prop :=
  alo + v ≤ i + 1 ∧ blo + v ≤ j + 1 ∧
  ∀ t, t < v → a.get? (i - t) = b.get? (j - t)

/-- A candidate best block: within the ranges and genuine. -/
def goodBlock (a b : List α) (alo ahi blo bhi : Nat)
    (blk : Nat × Nat × Nat) : Prop :=
  alo ≤ blk.1 ∧ blk.1 + blk.2.2 ≤ ahi ∧ blo ≤ blk.2.1 ∧
  blk.2.1 + blk.2.2 ≤ bhi ∧
  ∀ t, t < blk.2.2 → a.get? (blk.1 + t) = b.get? (blk.2.1 + t)

/-- Row-map invariant: positive entries record genuine chains ending at
the given row, within the column range. -/
def rowMapInv (a b : List α) (alo blo bhi i : Nat) (f : Nat → Nat) :
    Prop :=
  ∀ j, 0 < f j → chainEndG a b alo blo i j (f j) ∧ j < bhi

end SequenceMatcherGenuine

section SequenceMatcherGenuine2

variable {α : Type} [DecidableEq α]

/-- The inner candidate loop preserves the row-map invariant and the
goodness of the running best block. -/
theorem flmInner_good (a b : List α) (alo ahi blo bhi : Nat) (x : α)
    (i : Nat) (hialo : alo ≤ i) (hiahi : i < ahi)
    (hx : a.get? i = some x) (f_prev : Nat → Nat)
    (hprev : rowMapInv a b alo blo bhi (i - 1) f_prev)
    (hzm : i = 0 → ∀ j, f_prev j = 0) :
    ∀ (js : List Nat) (newf : Nat → Nat) (best : Nat × Nat × Nat),
      (∀ j ∈ js, b.get? j = some x) →
      rowMapInv a b alo blo bhi i newf →
      goodBlock a b alo ahi blo bhi best →
      rowMapInv a b alo blo bhi i
        (flmInner f_prev i blo bhi js newf best).1 ∧
      goodBlock a b alo ahi blo bhi
        (flmInner f_prev i blo bhi js newf best).2 := by
  intro js
  induction js with
  | nil =>
    intro newf best _ hnew hbest
    exact ⟨hnew, hbest⟩
  | cons j js ih =>
    intro newf best hjs hnew hbest
    simp only [flmInner]
    split
    · exact ih newf best (fun j2 hj2 => hjs j2 (List.mem_cons_of_mem _ hj2))
        hnew hbest
    · split
      · exact ⟨hnew, hbest⟩
      · rename_i hjblo hjbhi
        have hbj : b.get? j = some x := hjs j (List.mem_cons_self _ _)
        set k := (if j = 0 then 0 else f_prev (j - 1)) + 1 with hk
        have hchain : chainEndG a b alo blo i j k := by
          rw [hk]
          by_cases hj0 : j = 0
          · subst hj0
            rw [if_pos rfl]
            refine ⟨by omega, by omega, ?_⟩
            intro t ht
            have ht0 : t = 0 := by omega
            subst ht0
            rw [Nat.sub_zero, Nat.sub_zero, hx, hbj]
          · rw [if_neg hj0]
            by_cases hv : 0 < f_prev (j - 1)
            · have hi0 : i ≠ 0 := by
                intro h0
                rw [hzm h0 (j - 1)] at hv
                exact absurd hv (by omega)
              obtain ⟨hc1, hc2, hc3⟩ := (hprev (j - 1) hv).1
              refine ⟨by omega, by omega, ?_⟩
              intro t ht
              cases t with
              | zero => rw [Nat.sub_zero, Nat.sub_zero, hx, hbj]
              | succ t2 =>
                have := hc3 t2 (by omega)
                rw [show i - 1 - t2 = i - (t2 + 1) by omega,
                  show j - 1 - t2 = j - (t2 + 1) by omega] at this
                exact this
            · have hv0 : f_prev (j - 1) = 0 := by omega
              rw [hv0]
              refine ⟨by omega, by omega, ?_⟩
              intro t ht
              have ht0 : t = 0 := by omega
              subst ht0
              rw [Nat.sub_zero, Nat.sub_zero, hx, hbj]
        have hgood2 : goodBlock a b alo ahi blo bhi
            (i + 1 - k, j + 1 - k, k) := by
          obtain ⟨hc1, hc2, hc3⟩ := hchain
          dsimp only [goodBlock]
          refine ⟨by omega, by omega, by omega, by omega, ?_⟩
          intro t ht
          have h2 := hc3 (k - 1 - t) (by omega)
          rw [show i - (k - 1 - t) = i + 1 - k + t by omega,
            show j - (k - 1 - t) = j + 1 - k + t by omega] at h2
          exact h2
        refine ih _ _ (fun j2 hj2 => hjs j2 (List.mem_cons_of_mem _ hj2))
          ?_ ?_
        · intro j2 hj2
          by_cases hj2j : j2 = j
          · subst hj2j
            simp only [if_pos rfl] at hj2 ⊢
            exact ⟨hchain, by omega⟩
          · simp only [if_neg hj2j] at hj2 ⊢
            exact hnew j2 hj2
        · split
          · exact hgood2
          · exact hbest

end SequenceMatcherGenuine2

section SequenceMatcherGenuine3

variable {α : Type} [DecidableEq α]

/-- The outer row loop preserves goodness of the best block. -/
theorem flmOuter_good (a b : List α) (m : List (α × List Nat))
    (alo ahi blo bhi : Nat)
    (hM : ∀ (x : α) (j : Nat), j ∈ b2jGet m x → b.get? j = some x) :
    ∀ (cnt i0 : Nat) (f : Nat → Nat) (best : Nat × Nat × Nat),
      alo ≤ i0 → i0 + cnt ≤ ahi →
      rowMapInv a b alo blo bhi (i0 - 1) f →
      (i0 = 0 → ∀ j, f j = 0) →
      goodBlock a b alo ahi blo bhi best →
      goodBlock a b alo ahi blo bhi
        (flmOuter a m blo bhi (List.range' i0 cnt) f best) := by
  intro cnt
  induction cnt with
  | zero =>
    intro i0 f best _ _ _ _ hbest
    exact hbest
  | succ cnt ih =>
    intro i0 f best hi0 hcnt hf hzm hbest
    rw [List.range'_succ]
    simp only [flmOuter]
    cases hx : a.get? i0 with
    | none =>
      exact ih (i0 + 1) (fun _ => 0) best (by omega) (by omega)
        (fun j hj => absurd hj (by simp)) (fun _ _ => rfl) hbest
    | some x =>
      have hrun := flmInner_good a b alo ahi blo bhi x i0 hi0 (by omega) hx
        f hf hzm (b2jGet m x) (fun _ => 0) best (fun j hj => hM x j hj)
        (fun j hj => absurd hj (by simp)) hbest
      exact ih (i0 + 1)
        (flmInner f i0 blo bhi (b2jGet m x) (fun _ => 0) best).1
        (flmInner f i0 blo bhi (b2jGet m x) (fun _ => 0) best).2
        (by omega) (by omega) hrun.1 (fun h => absurd h (by omega)) hrun.2

/-- The leftward extension loop preserves goodness. -/
theorem extLeft_good (a b : List α) (alo ahi blo bhi : Nat) :
    ∀ (bi bj bs : Nat),
      goodBlock a b alo ahi blo bhi (bi, bj, bs) →
      goodBlock a b alo ahi blo bhi (extLeft a b alo blo bi bj bs) := by
  intro bi
  induction bi with
  | zero =>
    intro bj bs hg
    exact hg
  | succ bi ih =>
    intro bj bs hg
    simp only [extLeft]
    split
    · rename_i hcond
      cases hga : a.get? bi with
      | none => simp only [hga]; exact hg
      | some xx =>
        cases hgb : b.get? (bj - 1) with
        | none => simp only [hga, hgb]; exact hg
        | some yy =>
          simp only [hga, hgb]
          split
          · rename_i hxy
            apply ih (bj - 1) (bs + 1)
            obtain ⟨h1, h2, h3, h4, h5⟩ := hg
            dsimp only [goodBlock] at h1 h2 h3 h4 h5 ⊢
            refine ⟨by omega, by omega, by omega, by omega, ?_⟩
            intro t ht
            cases t with
            | zero =>
              rw [Nat.add_zero, Nat.add_zero, hga, hgb, hxy]
            | succ t2 =>
              have h6 := h5 t2 (by omega)
              rw [show bi + (t2 + 1) = bi + 1 + t2 by omega,
                show bj - 1 + (t2 + 1) = bj + t2 by omega]
              exact h6
          · exact hg
    · exact hg

/-- The rightward extension loop preserves goodness. -/
theorem extRight_good (a b : List α) (alo ahi blo bhi bi bj : Nat) :
    ∀ (fuel bs : Nat),
      goodBlock a b alo ahi blo bhi (bi, bj, bs) →
      goodBlock a b alo ahi blo bhi
        (bi, bj, extRight a b ahi bhi bi bj fuel bs) := by
  intro fuel
  induction fuel with
  | zero =>
    intro bs hg
    exact hg
  | succ fuel ih =>
    intro bs hg
    simp only [extRight]
    split
    · rename_i hcond
      cases hga : a.get? (bi + bs) with
      | none => simp only [hga]; exact hg
      | some xx =>
        cases hgb : b.get? (bj + bs) with
        | none => simp only [hga, hgb]; exact hg
        | some yy =>
          simp only [hga, hgb]
          split
          · rename_i hxy
            apply ih (bs + 1)
            obtain ⟨h1, h2, h3, h4, h5⟩ := hg
            dsimp only [goodBlock] at h1 h2 h3 h4 h5 ⊢
            refine ⟨h1, by omega, h3, by omega, ?_⟩
            intro t ht
            by_cases htb : t < bs
            · exact h5 t htb
            · have hteq : t = bs := by omega
              subst hteq
              rw [hga, hgb, hxy]
          · exact hg
    · exact hg

/-- find_longest_match returns a genuine in-range block. -/
theorem find_longest_match_good (a b : List α) (m : List (α × List Nat))
    (alo ahi blo bhi : Nat)
    (hM : ∀ (x : α) (j : Nat), j ∈ b2jGet m x → b.get? j = some x)
    (halo : alo ≤ ahi) (hblo : blo ≤ bhi) :
    goodBlock a b alo ahi blo bhi
      (find_longest_match a b m alo ahi blo bhi) := by
  have h0 : goodBlock a b alo ahi blo bhi (alo, blo, 0) := by
    dsimp only [goodBlock]
    exact ⟨le_refl _, by omega, le_refl _, by omega,
      fun t ht => absurd ht (by omega)⟩
  have hbest := flmOuter_good a b m alo ahi blo bhi hM (ahi - alo) alo
    (fun _ => 0) (alo, blo, 0) (le_refl _) (by omega)
    (fun j hj => absurd hj (by simp)) (fun _ _ => rfl) h0
  rcases hB : flmOuter a m blo bhi (List.range' alo (ahi - alo))
    (fun _ => 0) (alo, blo, 0) with ⟨p1, p2, p3⟩
  rw [hB] at hbest
  rcases hE : extLeft a b alo blo p1 p2 p3 with ⟨e1, e2, e3⟩
  have hL := extLeft_good a b alo ahi blo bhi p1 p2 p3 hbest
  rw [hE] at hL
  have hR := extRight_good a b alo ahi blo bhi e1 e2 ahi e3 hL
  unfold find_longest_match
  rw [hB]
  simp only []
  rw [hE]
  exact hR

end SequenceMatcherGenuine3

section SequenceMatcherGenuine4

variable {α : Type} [DecidableEq α]

/-- Every block collected by matchingBlocksGo is genuine, lies inside
the query ranges, and has positive size. -/
theorem matchingBlocksGo_good (a b : List α) (m : List (α × List Nat))
    (hM : ∀ (x : α) (j : Nat), j ∈ b2jGet m x → b.get? j = some x) :
    ∀ (fuel alo ahi blo bhi : Nat), alo ≤ ahi → blo ≤ bhi →
      ∀ p ∈ matchingBlocksGo a b m fuel alo ahi blo bhi,
        (∀ t, t < p.2.2 → a.get? (p.1 + t) = b.get? (p.2.1 + t)) ∧
        alo ≤ p.1 ∧ p.1 + p.2.2 ≤ ahi ∧ blo ≤ p.2.1 ∧
        p.2.1 + p.2.2 ≤ bhi ∧ p.2.2 ≠ 0 := by
  intro fuel
  induction fuel with
  | zero =>
    intro alo ahi blo bhi _ _ p hp
    simp [matchingBlocksGo] at hp
  | succ fuel ih =>
    intro alo ahi blo bhi halo hblo p hp
    have hflm := find_longest_match_good a b m alo ahi blo bhi hM halo hblo
    rcases hF : find_longest_match a b m alo ahi blo bhi with ⟨i, j, k⟩
    rw [hF] at hflm
    obtain ⟨g1, g2, g3, g4, g5⟩ := hflm
    dsimp only at g1 g2 g3 g4 g5
    simp only [matchingBlocksGo, hF] at hp
    by_cases hk : k = 0
    · rw [if_pos hk] at hp
      simp at hp
    · rw [if_neg hk] at hp
      rcases List.mem_append.mp hp with hp1 | hpR
      · rcases List.mem_append.mp hp1 with hpL | hpM
        · split at hpL
          · rename_i hguard
            obtain ⟨q1, q2, q3, q4, q5, q6⟩ :=
              ih alo i blo j (by omega) (by omega) p hpL
            exact ⟨q1, q2, by omega, q4, by omega, q6⟩
          · simp at hpL
        · rw [List.mem_singleton] at hpM
          subst hpM
          exact ⟨g5, g1, g2, g3, g4, hk⟩
      · split at hpR
        · rename_i hguard
          obtain ⟨q1, q2, q3, q4, q5, q6⟩ :=
            ih (i + k) ahi (j + k) bhi (by omega) (by omega) p hpR
          exact ⟨q1, by omega, q3, by omega, q5, q6⟩
        · simp at hpR

/-- Genuineness within the whole sequences. -/
def blockOk (a b : List α) (p : Nat × Nat × Nat) : Prop :=
  (∀ t, t < p.2.2 → a.get? (p.1 + t) = b.get? (p.2.1 + t)) ∧
  p.1 + p.2.2 ≤ a.length ∧ p.2.1 + p.2.2 ≤ b.length

/-- Merging adjacent blocks preserves genuineness. -/
theorem mergeAdjacentBlocks_ok (a b : List α) :
    ∀ (L : List (Nat × Nat × Nat)) (cur : Nat × Nat × Nat),
      blockOk a b cur → (∀ p ∈ L, blockOk a b p) →
      ∀ q ∈ mergeAdjacentBlocks cur L, blockOk a b q := by
  intro L
  induction L with
  | nil =>
    intro cur hcur _ q hq
    rcases cur with ⟨i1, j1, k1⟩
    simp only [mergeAdjacentBlocks] at hq
    split at hq
    · rw [List.mem_singleton] at hq
      subst hq
      exact hcur
    · simp at hq
  | cons hd rest ih =>
    intro cur hcur hall q hq
    rcases cur with ⟨i1, j1, k1⟩
    rcases hd with ⟨i2, j2, k2⟩
    simp only [mergeAdjacentBlocks] at hq
    split at hq
    · rename_i htouch
      obtain ⟨ht1, ht2⟩ := htouch
      refine ih (i1, j1, k1 + k2) ?_
        (fun p hp => hall p (List.mem_cons_of_mem _ hp)) q hq
      obtain ⟨hc1, hc2, hc3⟩ := hcur
      obtain ⟨hd1, hd2, hd3⟩ := hall (i2, j2, k2) (List.mem_cons_self _ _)
      dsimp only [blockOk] at hc1 hc2 hc3 hd1 hd2 hd3 ⊢
      refine ⟨?_, by omega, by omega⟩
      intro t ht
      by_cases htk : t < k1
      · exact hc1 t htk
      · have h6 := hd1 (t - k1) (by omega)
        rw [show i2 + (t - k1) = i1 + t by omega,
          show j2 + (t - k1) = j1 + t by omega] at h6
        exact h6
    · rcases List.mem_append.mp hq with hq1 | hq2
      · split at hq1
        · rw [List.mem_singleton] at hq1
          subst hq1
          exact hcur
        · simp at hq1
      · exact ih (i2, j2, k2) (hall _ (List.mem_cons_self _ _))
          (fun p hp => hall p (List.mem_cons_of_mem _ hp)) q hq2

/-- Every block emitted by the merge phase has positive size. -/
theorem mergeAdjacentBlocks_pos :
    ∀ (L : List (Nat × Nat × Nat)) (cur : Nat × Nat × Nat),
      ∀ q ∈ mergeAdjacentBlocks cur L, q.2.2 ≠ 0 := by
  intro L
  induction L with
  | nil =>
    intro cur q hq
    rcases cur with ⟨i1, j1, k1⟩
    simp only [mergeAdjacentBlocks] at hq
    split at hq
    · rename_i hk1
      rw [List.mem_singleton] at hq
      subst hq
      exact hk1
    · simp at hq
  | cons hd rest ih =>
    intro cur q hq
    rcases cur with ⟨i1, j1, k1⟩
    rcases hd with ⟨i2, j2, k2⟩
    simp only [mergeAdjacentBlocks] at hq
    split at hq
    · exact ih (i1, j1, k1 + k2) q hq
    · rcases List.mem_append.mp hq with hq1 | hq2
      · split at hq1
        · rename_i hk1
          rw [List.mem_singleton] at hq1
          subst hq1
          exact hk1
        · simp at hq1
      · exact ih (i2, j2, k2) q hq2

end SequenceMatcherGenuine4

/-- A positive-size block forces at least one opcode. -/
theorem opcodesGo_ne_nil :
    ∀ (L : List (Nat × Nat × Nat)) (i j : Nat) (p : Nat × Nat × Nat),
      p ∈ L → p.2.2 ≠ 0 → opcodesGo i j L ≠ [] := by
  intro L
  induction L with
  | nil =>
    intro i j p hp
    simp at hp
  | cons hd rest ih =>
    intro i j p hp hps heq
    rcases hd with ⟨ai, bj, size⟩
    simp only [opcodesGo] at heq
    rw [List.append_assoc, List.append_eq_nil] at heq
    obtain ⟨hg, heq2⟩ := heq
    rw [List.append_eq_nil] at heq2
    obtain ⟨he, hr⟩ := heq2
    rcases List.mem_cons.mp hp with hph | hpt
    · subst hph
      dsimp only at hps
      rw [if_pos hps] at he
      exact List.cons_ne_nil _ _ he
    · exact ih (ai + size) (bj + size) p hpt hps hr

/-- An empty opcode walk over blocks ending in the terminal block means
there were no real blocks and the cursor already covers both ends. -/
theorem opcodesGo_nil_terminal (la lb : Nat) :
    ∀ (L : List (Nat × Nat × Nat)) (i j : Nat),
      (∀ p ∈ L, p.2.2 ≠ 0) →
      opcodesGo i j (L ++ [(la, lb, 0)]) = [] →
      L = [] ∧ la ≤ i ∧ lb ≤ j := by
  intro L
  induction L with
  | nil =>
    intro i j _ heq
    simp only [List.nil_append, opcodesGo] at heq
    rw [List.append_assoc, List.append_eq_nil] at heq
    obtain ⟨hg, _⟩ := heq
    refine ⟨rfl, ?_, ?_⟩ <;>
    · split at hg
      · exact absurd hg (List.cons_ne_nil _ _)
      · split at hg
        · exact absurd hg (List.cons_ne_nil _ _)
        · split at hg
          · exact absurd hg (List.cons_ne_nil _ _)
          · omega
  | cons hd rest ih =>
    intro i j hall heq
    rcases hd with ⟨ai, bj, size⟩
    simp only [List.cons_append, opcodesGo] at heq
    rw [List.append_assoc, List.append_eq_nil] at heq
    obtain ⟨hg, heq2⟩ := heq
    rw [List.append_eq_nil] at heq2
    obtain ⟨he, hr⟩ := heq2
    have hsz : size ≠ 0 := by
      have := hall (ai, bj, size) (List.mem_cons_self _ _)
      exact this
    rw [if_pos hsz] at he
    exact absurd he (List.cons_ne_nil _ _)

/-- A single equal opcode from a terminal-ended block walk starting at
the origin pins down one real block covering both sequences. -/
theorem opcodesGo_single_equal (la lb : Nat) :
    ∀ (L : List (Nat × Nat × Nat)) (c : Opcode),
      (∀ p ∈ L, p.2.2 ≠ 0) →
      opcodesGo 0 0 (L ++ [(la, lb, 0)]) = [c] → c.1 = Tag.equal →
      ∃ k, k ≠ 0 ∧ (0, 0, k) ∈ L ∧ la ≤ k ∧ lb ≤ k := by
  intro L
  cases L with
  | nil =>
    intro c _ heq htag
    simp only [List.nil_append, opcodesGo, List.append_nil] at heq
    exfalso
    rw [if_neg (show ¬ (0 ≠ 0) from fun h => h rfl)] at heq
    split at heq
    · rw [List.append_nil] at heq
      injection heq with h1 _
      rw [← h1] at htag
      exact Tag.noConfusion htag
    · split at heq
      · rw [List.append_nil] at heq
        injection heq with h1 _
        rw [← h1] at htag
        exact Tag.noConfusion htag
      · split at heq
        · rw [List.append_nil] at heq
          injection heq with h1 _
          rw [← h1] at htag
          exact Tag.noConfusion htag
        · exact List.noConfusion (heq.symm)
  | cons hd rest =>
    intro c hall heq htag
    rcases hd with ⟨a1, b1, k1⟩
    have hk1 : k1 ≠ 0 := hall (a1, b1, k1) (List.mem_cons_self _ _)
    simp only [List.cons_append, opcodesGo, List.append_eq] at heq
    rw [if_pos hk1] at heq
    have hlen := congrArg List.length heq
    simp only [List.length_append, List.length_cons, List.length_nil,
      List.length_singleton] at hlen
    have hgap : (if 0 < a1 ∧ 0 < b1 then
        [(Tag.replace, 0, a1, 0, b1)]
      else if 0 < a1 then [(Tag.delete, 0, a1, 0, b1)]
      else if 0 < b1 then [(Tag.insert, 0, a1, 0, b1)]
      else ([] : List Opcode)).length = 0 ∧
        (opcodesGo (a1 + k1) (b1 + k1) (rest ++ [(la, lb, 0)])).length
          = 0 := by
      constructor <;> omega
    obtain ⟨hgl, hrl⟩ := hgap
    have hr0 : opcodesGo (a1 + k1) (b1 + k1) (rest ++ [(la, lb, 0)]) = [] :=
      List.eq_nil_of_length_eq_zero hrl
    obtain ⟨hrest, hla, hlb⟩ := opcodesGo_nil_terminal la lb rest
      (a1 + k1) (b1 + k1) (fun p hp => hall p (List.mem_cons_of_mem _ hp))
      hr0
    have ha1 : a1 = 0 ∧ b1 = 0 := by
      constructor <;>
      · split at hgl
        · simp at hgl
        · split at hgl
          · simp at hgl
          · split at hgl
            · simp at hgl
            · omega
    obtain ⟨ha0, hb0⟩ := ha1
    subst ha0
    subst hb0
    exact ⟨k1, hk1, List.mem_cons_self _ _, by omega, by omega⟩

/-- An empty grouping means everything was accumulated into one group
that is empty or a single equal opcode. -/
theorem groupedGo_nil (n : Nat) :
    ∀ (codes group : List Opcode), groupedGo n codes group = [] →
      group ++ codes = [] ∨
      ∃ i1 i2 j1 j2, group ++ codes = [(Tag.equal, i1, i2, j1, j2)] := by
  intro codes
  induction codes with
  | nil =>
    intro group heq
    simp only [groupedGo] at heq
    split at heq
    · left
      simp
    · rename_i i1 i2 j1 j2
      right
      exact ⟨i1, i2, j1, j2, by simp⟩
    · exact absurd heq (List.cons_ne_nil _ _)
  | cons cd rest ih =>
    intro group heq
    rcases cd with ⟨tag, i1, i2, j1, j2⟩
    simp only [groupedGo] at heq
    split at heq
    · exact absurd heq (List.cons_ne_nil _ _)
    · rcases ih (group ++ [(tag, i1, i2, j1, j2)]) heq with h1 | h2
      · left
        rw [show group ++ (tag, i1, i2, j1, j2) :: rest
            = (group ++ [(tag, i1, i2, j1, j2)]) ++ rest by simp]
        exact h1
      · right
        rw [show group ++ (tag, i1, i2, j1, j2) :: rest
            = (group ++ [(tag, i1, i2, j1, j2)]) ++ rest by simp]
        exact h2

/-- Trimming the leading equal opcode preserves the tag list. -/
theorem trimFirstEqual_tags (n : Nat) (l : List Opcode) :
    (trimFirstEqual n l).map Prod.fst = l.map Prod.fst := by
  cases l with
  | nil => rfl
  | cons hd rest =>
    rcases hd with ⟨tag, a1, a2, b1, b2⟩
    cases tag <;> rfl

/-- Trimming the trailing equal opcode preserves the tag list. -/
theorem trimLastEqual_tags (n : Nat) (l : List Opcode) :
    (trimLastEqual n l).map Prod.fst = l.map Prod.fst := by
  unfold trimLastEqual
  rcases hrev : l.reverse with _ | ⟨hd, restRev⟩
  · rfl
  · rcases hd with ⟨tag, a1, a2, b1, b2⟩
    have hl : l = ((tag, a1, a2, b1, b2) :: restRev).reverse := by
      rw [← List.reverse_reverse l, hrev]
    cases tag
    case equal =>
      rw [hl]
      simp [List.map_reverse]
    all_goals rfl

section SequenceMatcherGenuine5

variable {α : Type} [DecidableEq α]

/-- From genuine positive merged blocks, an empty or single-equal
opcode walk forces the sequences to coincide. -/
theorem opcodes_shape_imp_eq (a b : List α)
    (merged : List (Nat × Nat × Nat))
    (hOk : ∀ p ∈ merged, blockOk a b p)
    (hPos : ∀ p ∈ merged, p.2.2 ≠ 0) :
    (opcodesGo 0 0 (merged ++ [(a.length, b.length, 0)]) = [] → a = b) ∧
    (∀ c : Opcode,
      opcodesGo 0 0 (merged ++ [(a.length, b.length, 0)]) = [c] →
      c.1 = Tag.equal → a = b) := by
  constructor
  · intro h
    obtain ⟨_, hla, hlb⟩ :=
      opcodesGo_nil_terminal a.length b.length merged 0 0 hPos h
    have ha : a = [] := List.eq_nil_of_length_eq_zero (by omega)
    have hb : b = [] := List.eq_nil_of_length_eq_zero (by omega)
    rw [ha, hb]
  · intro c h htag
    obtain ⟨k, hk0, hkmem, hkla, hklb⟩ :=
      opcodesGo_single_equal a.length b.length merged c hPos h htag
    obtain ⟨hseg, hk_la, hk_lb⟩ := hOk (0, 0, k) hkmem
    dsimp only at hseg hk_la hk_lb
    apply List.ext_get?
    intro t
    by_cases ht : t < k
    · simpa using hseg t ht
    · rw [List.get?_eq_none.mpr (by omega), List.get?_eq_none.mpr (by omega)]

/-- Empty grouped opcodes force equal sequences. -/
theorem get_grouped_opcodes_nil_imp_eq (a b : List α)
    (h : get_grouped_opcodes a b 3 = []) : a = b := by
  have hM : ∀ (x : α) (j : Nat), j ∈ b2jGet (b2j b) x → b.get? j = some x :=
    fun x j hj => b2jGet_b2j_getq b x j hj
  have hOkRaw : ∀ p ∈ matchingBlocksGo a b (b2j b)
      (a.length + b.length + 1) 0 a.length 0 b.length, blockOk a b p := by
    intro p hp
    obtain ⟨q1, _, q3, _, q5, _⟩ := matchingBlocksGo_good a b (b2j b) hM
      (a.length + b.length + 1) 0 a.length 0 b.length
      (Nat.zero_le _) (Nat.zero_le _) p hp
    exact ⟨q1, q3, q5⟩
  have hOkSorted : ∀ p ∈ List.insertionSort blockLe
      (matchingBlocksGo a b (b2j b)
        (a.length + b.length + 1) 0 a.length 0 b.length),
      blockOk a b p := by
    intro p hp
    exact hOkRaw p ((List.perm_insertionSort blockLe _).mem_iff.mp hp)
  have hOk0 : blockOk a b (0, 0, 0) := by
    refine ⟨?_, by simp, by simp⟩
    intro t ht
    simp at ht
  have hOkMerged : ∀ p ∈ mergeAdjacentBlocks (0, 0, 0)
      (List.insertionSort blockLe (matchingBlocksGo a b (b2j b)
        (a.length + b.length + 1) 0 a.length 0 b.length)),
      blockOk a b p :=
    fun p hp => mergeAdjacentBlocks_ok a b _ (0, 0, 0) hOk0 hOkSorted p hp
  have hPosMerged : ∀ p ∈ mergeAdjacentBlocks (0, 0, 0)
      (List.insertionSort blockLe (matchingBlocksGo a b (b2j b)
        (a.length + b.length + 1) 0 a.length 0 b.length)),
      p.2.2 ≠ 0 :=
    fun p hp => mergeAdjacentBlocks_pos _ (0, 0, 0) p hp
  have hshape := opcodes_shape_imp_eq a b _ hOkMerged hPosMerged
  have hunf : get_opcodes a b = opcodesGo 0 0
      (mergeAdjacentBlocks (0, 0, 0)
        (List.insertionSort blockLe (matchingBlocksGo a b (b2j b)
          (a.length + b.length + 1) 0 a.length 0 b.length)) ++
        [(a.length, b.length, 0)]) := rfl
  by_cases hc0 : get_opcodes a b = []
  · rw [hunf] at hc0
    exact hshape.1 hc0
  · simp only [get_grouped_opcodes, if_neg hc0] at h
    rcases groupedGo_nil 3 _ [] h with h1 | h2
    · rw [List.nil_append] at h1
      have htn : (get_opcodes a b).map Prod.fst = [] := by
        rw [← trimFirstEqual_tags 3 (get_opcodes a b),
          ← trimLastEqual_tags 3 (trimFirstEqual 3 (get_opcodes a b)), h1]
        rfl
      exact absurd (List.map_eq_nil.mp htn) hc0
    · obtain ⟨i1, i2, j1, j2, h2⟩ := h2
      rw [List.nil_append] at h2
      have htags : (get_opcodes a b).map Prod.fst = [Tag.equal] := by
        rw [← trimFirstEqual_tags 3 (get_opcodes a b),
          ← trimLastEqual_tags 3 (trimFirstEqual 3 (get_opcodes a b)), h2]
        rfl
      rcases hC : get_opcodes a b with _ | ⟨c1h, c1rest⟩
      · exact absurd hC hc0
      · rw [hC] at htags
        simp only [List.map_cons] at htags
        injection htags with htag hrest2
        have hrest : c1rest = [] := List.map_eq_nil.mp hrest2
        subst hrest
        rw [hunf] at hC
        exact hshape.2 c1h hC htag

end SequenceMatcherGenuine5

section SequenceMatcherDiag

variable {α : Type} [DecidableEq α]

/-- Is the element at row r present in the (possibly autojunked) b2j
map of the list itself? -/
def presB (l : List α) (r : Nat) : Bool :=
  match l.get? r with
  | none => false
  | some x => decide (b2jGet (b2j l) x ≠ [])

/-- Presence only depends on the element. -/
theorem presB_congr (l : List α) (r1 r2 : Nat)
    (h : l.get? r1 = l.get? r2) : presB l r1 = presB l r2 := by
  unfold presB
  rw [h]

/-- Length of the maximal run of present rows ending at the given row,
within the range starting at alo. -/
def diagRun (l : List α) (alo : Nat) : Nat → Nat
  | 0 => if alo = 0 ∧ presB l 0 = true then 1 else 0
  | r + 1 =>
    if r + 1 < alo ∨ ¬ presB l (r + 1) = true then 0
    else diagRun l alo r + 1

/-- A present streak ending at j of length k forces diagRun j ≥ k. -/
theorem diagRun_ge (l : List α) (alo : Nat) :
    ∀ (k j : Nat), (∀ t, t < k → presB l (j - t) = true) →
      alo + k ≤ j + 1 → k ≤ diagRun l alo j := by
  intro k
  induction k with
  | zero =>
    intro j _ _
    exact Nat.zero_le _
  | succ k ih =>
    intro j hpres hle
    cases j with
    | zero =>
      have ha : alo = 0 := by omega
      have hk : k = 0 := by omega
      subst ha
      subst hk
      have hp : presB l 0 = true := by simpa using hpres 0 (by omega)
      simp [diagRun, hp]
    | succ j2 =>
      have hp : presB l (j2 + 1) = true := by
        simpa using hpres 0 (by omega)
      have hcond : ¬ (j2 + 1 < alo ∨ ¬ presB l (j2 + 1) = true) := by
        push_neg
        exact ⟨by omega, hp⟩
      simp only [diagRun, if_neg hcond]
      have hrec := ih j2
        (fun t ht => by
          have := hpres (t + 1) (by omega)
          rwa [show j2 + 1 - (t + 1) = j2 - t by omega] at this)
        (by omega)
      omega

/-- diagRun vanishes on absent rows. -/
theorem diagRun_zero (l : List α) (alo r : Nat)
    (h : ¬ presB l r = true) : diagRun l alo r = 0 := by
  cases r with
  | zero =>
    simp only [diagRun]
    rw [if_neg]
    intro hc
    exact h hc.2
  | succ r2 =>
    simp only [diagRun]
    rw [if_pos (Or.inr h)]

/-- End-anchored genuine diagonal-capable chain of the list against
itself, with presence of every chain row. -/
def chainD (l : List α) (alo i j v : Nat) : Prop :=
  alo + v ≤ i + 1 ∧ alo + v ≤ j + 1 ∧
  ∀ t, t < v → l.get? (i - t) = l.get? (j - t) ∧ presB l (i - t) = true

/-- Row-map invariant for the self-comparison scan. -/
def rowInvD (l : List α) (alo ahi i : Nat) (f : Nat → Nat) : Prop :=
  ∀ j, 0 < f j → chainD l alo i j (f j) ∧ alo ≤ j ∧ j < ahi

/-- The running best block is diagonal and within range. -/
def bestD (alo ahi : Nat) (best : Nat × Nat × Nat) : Prop :=
  best.1 = best.2.1 ∧ alo ≤ best.1 ∧ best.1 + best.2.2 ≤ ahi

/-- The best size dominates every diagonal run of a processed row. -/
def maxUpTo (l : List α) (alo i : Nat) (best : Nat × Nat × Nat) :
    Prop :=
  ∀ r, alo ≤ r → r < i → diagRun l alo r ≤ best.2.2

end SequenceMatcherDiag

section SequenceMatcherDiag2

variable {α : Type} [DecidableEq α]

/-- Unfolding of diagRun at a present in-range positive row. -/
theorem diagRun_succ_eq (l : List α) (alo i : Nat) (hi : 1 ≤ i)
    (halo : alo ≤ i) (hp : presB l i = true) :
    diagRun l alo i = diagRun l alo (i - 1) + 1 := by
  cases i with
  | zero => omega
  | succ i2 =>
    simp only [diagRun]
    rw [if_neg (by push_neg; exact ⟨by omega, hp⟩), Nat.add_sub_cancel]

/-- The inner candidate loop of the self-comparison keeps the best
block diagonal, keeps it dominating all processed diagonal runs, and
records the diagonal run of the current row. -/
theorem flmInner_diag (l : List α) (alo ahi : Nat) (x : α) (i : Nat)
    (hialo : alo ≤ i) (hiahi : i < ahi) (hx : l.get? i = some x)
    (hne : b2jGet (b2j l) x ≠ []) (f_prev : Nat → Nat)
    (hprev : rowInvD l alo ahi (i - 1) f_prev)
    (hpd : 1 ≤ i → f_prev (i - 1) = diagRun l alo (i - 1))
    (hzm : i = 0 → ∀ j, f_prev j = 0) :
    ∀ (js : List Nat) (newf : Nat → Nat) (best : Nat × Nat × Nat),
      js.Sorted (· < ·) →
      (∀ j ∈ js, j ∈ b2jGet (b2j l) x) →
      rowInvD l alo ahi i newf →
      bestD alo ahi best →
      maxUpTo l alo i best →
      ((i ∈ js ∧ newf i = 0) ∨
        (newf i = diagRun l alo i ∧ diagRun l alo i ≤ best.2.2)) →
      rowInvD l alo ahi i (flmInner f_prev i alo ahi js newf best).1 ∧
      bestD alo ahi (flmInner f_prev i alo ahi js newf best).2 ∧
      maxUpTo l alo i (flmInner f_prev i alo ahi js newf best).2 ∧
      (flmInner f_prev i alo ahi js newf best).1 i = diagRun l alo i ∧
      diagRun l alo i ≤
        (flmInner f_prev i alo ahi js newf best).2.2.2 := by
  have hpres : presB l i = true := by
    unfold presB
    rw [hx]
    exact decide_eq_true hne
  intro js
  induction js with
  | nil =>
    intro newf best _ _ hnew hbestD hmax hphase
    rcases hphase with ⟨hmem, _⟩ | ⟨hd1, hd2⟩
    · exact absurd hmem (List.not_mem_nil _)
    · exact ⟨hnew, hbestD, hmax, hd1, hd2⟩
  | cons j js ih =>
    intro newf best hs hsub hnew hbestD hmax hphase
    have hstail : js.Sorted (· < ·) := (List.sorted_cons.mp hs).2
    have hshead : ∀ y ∈ js, j < y := (List.sorted_cons.mp hs).1
    have hsubtail : ∀ j2 ∈ js, j2 ∈ b2jGet (b2j l) x :=
      fun j2 h2 => hsub j2 (List.mem_cons_of_mem _ h2)
    simp only [flmInner]
    split
    · rename_i hjlt
      refine ih newf best hstail hsubtail hnew hbestD hmax ?_
      rcases hphase with ⟨hmem, h0⟩ | hinr
      · left
        refine ⟨?_, h0⟩
        rcases List.mem_cons.mp hmem with h1 | h2
        · omega
        · exact h2
      · exact Or.inr hinr
    · split
      · rename_i hjblo hjge
        rcases hphase with ⟨hmem, _⟩ | ⟨hd1, hd2⟩
        · exfalso
          rcases List.mem_cons.mp hmem with h1 | h2
          · omega
          · have := hshead i h2
            omega
        · exact ⟨hnew, hbestD, hmax, hd1, hd2⟩
      · rename_i hjblo hjbhi
        have hLj : l.get? j = some x :=
          b2jGet_b2j_getq l x j (hsub j (List.mem_cons_self _ _))
        set k := (if j = 0 then 0 else f_prev (j - 1)) + 1 with hk
        have hchain : chainD l alo i j k := by
          rw [hk]
          by_cases hj0 : j = 0
          · subst hj0
            rw [if_pos rfl]
            refine ⟨by omega, by omega, ?_⟩
            intro t ht
            have ht0 : t = 0 := by omega
            subst ht0
            rw [Nat.sub_zero, Nat.sub_zero]
            exact ⟨hx.trans hLj.symm, hpres⟩
          · rw [if_neg hj0]
            by_cases hv : 0 < f_prev (j - 1)
            · have hi0 : i ≠ 0 := by
                intro h0
                rw [hzm h0 (j - 1)] at hv
                exact absurd hv (by omega)
              obtain ⟨⟨hc1, hc2, hc3⟩, hjalo2, hjahi2⟩ := hprev (j - 1) hv
              refine ⟨by omega, by omega, ?_⟩
              intro t ht
              cases t with
              | zero =>
                rw [Nat.sub_zero, Nat.sub_zero]
                exact ⟨hx.trans hLj.symm, hpres⟩
              | succ t2 =>
                have h6 := hc3 t2 (by omega)
                rw [show i - 1 - t2 = i - (t2 + 1) by omega,
                  show j - 1 - t2 = j - (t2 + 1) by omega] at h6
                exact h6
            · have hv0 : f_prev (j - 1) = 0 := by omega
              rw [hv0]
              refine ⟨by omega, by omega, ?_⟩
              intro t ht
              have ht0 : t = 0 := by omega
              subst ht0
              rw [Nat.sub_zero, Nat.sub_zero]
              exact ⟨hx.trans hLj.symm, hpres⟩
        have hrownew : ∀ (bb : Nat × Nat × Nat),
            rowInvD l alo ahi i (fun m => if m = j then k else newf m) := by
          intro _
          intro j2 hj2
          by_cases hj2j : j2 = j
          · subst hj2j
            simp only [if_pos rfl] at hj2 ⊢
            exact ⟨hchain, by omega, by omega⟩
          · simp only [if_neg hj2j] at hj2 ⊢
            exact hnew j2 hj2
        rcases Nat.lt_trichotomy j i with hji | hji | hji
        · have hjpres : ∀ t, t < k → presB l (j - t) = true := by
            intro t ht
            have hc := hchain.2.2 t ht
            rw [← presB_congr l (i - t) (j - t) hc.1]
            exact hc.2
          have hdj : k ≤ diagRun l alo j :=
            diagRun_ge l alo k j hjpres hchain.2.1
          have hnofire : ¬ (k > best.2.2) := by
            have := hmax j (by omega) (by omega)
            omega
          rw [if_neg hnofire]
          refine ih _ best hstail hsubtail (hrownew best) hbestD hmax ?_
          rcases hphase with ⟨hmem, h0⟩ | ⟨hd1, hd2⟩
          · left
            refine ⟨?_, ?_⟩
            · rcases List.mem_cons.mp hmem with h1 | h2
              · omega
              · exact h2
            · rw [if_neg (by omega : ¬ i = j)]
              exact h0
          · right
            refine ⟨?_, hd2⟩
            rw [if_neg (by omega : ¬ i = j)]
            exact hd1
        · subst hji
          have hkval : k = diagRun l alo j := by
            rw [hk]
            by_cases hi0 : j = 0
            · subst hi0
              rw [if_pos rfl]
              have halo0 : alo = 0 := by omega
              subst halo0
              simp [diagRun, hpres]
            · rw [if_neg hi0, hpd (by omega),
                diagRun_succ_eq l alo j (by omega) hialo hpres]
          by_cases hfire : k > best.2.2
          · rw [if_pos hfire]
            refine ih _ _ hstail hsubtail (hrownew best) ?_ ?_ ?_
            · refine ⟨rfl, ?_, ?_⟩ <;>
              · dsimp only
                have h7 := hchain.1
                omega
            · intro r hr1 hr2
              have := hmax r hr1 hr2
              dsimp only
              omega
            · right
              constructor
              · rw [if_pos rfl]
                exact hkval
              · dsimp only
                omega
          · rw [if_neg hfire]
            refine ih _ best hstail hsubtail (hrownew best) hbestD hmax ?_
            right
            constructor
            · rw [if_pos rfl]
              exact hkval
            · omega
        · rcases hphase with ⟨hmem, _⟩ | ⟨hd1, hd2⟩
          · exfalso
            rcases List.mem_cons.mp hmem with h1 | h2
            · omega
            · have := hshead i h2
              omega
          · have hipres2 : ∀ t, t < k → presB l (i - t) = true :=
              fun t ht => (hchain.2.2 t ht).2
            have hdi : k ≤ diagRun l alo i :=
              diagRun_ge l alo k i hipres2 hchain.1
            have hnofire : ¬ (k > best.2.2) := by omega
            rw [if_neg hnofire]
            refine ih _ best hstail hsubtail (hrownew best) hbestD hmax ?_
            right
            refine ⟨?_, hd2⟩
            rw [if_neg (by omega : ¬ i = j)]
            exact hd1

end SequenceMatcherDiag2

section SequenceMatcherDiag3

variable {α : Type} [DecidableEq α]

/-- Positions of an element in a list, from a base offset. -/
def posFrom (x : α) : List α → Nat → List Nat
  | [], _ => []
  | c :: rest, j0 => (if c = x then [j0] else []) ++ posFrom x rest (j0 + 1)

/-- Adding a position for x appends it to the entry of x. -/
theorem b2jGet_b2jAdd_same (acc : List (α × List Nat)) (x : α) (j : Nat) :
    b2jGet (b2jAdd acc x j) x = b2jGet acc x ++ [j] := by
  induction acc with
  | nil => simp [b2jAdd, b2jGet]
  | cons hd rest ih =>
    rcases hd with ⟨z, zs⟩
    by_cases hxz : x = z
    · subst hxz
      simp [b2jAdd, b2jGet]
    · simp [b2jAdd, b2jGet, hxz, ih]

/-- Adding a position for x leaves other entries unchanged. -/
theorem b2jGet_b2jAdd_ne (acc : List (α × List Nat)) (x y : α) (j : Nat)
    (hxy : y ≠ x) : b2jGet (b2jAdd acc x j) y = b2jGet acc y := by
  induction acc with
  | nil => simp [b2jAdd, b2jGet, hxy]
  | cons hd rest ih =>
    rcases hd with ⟨z, zs⟩
    by_cases hxz : x = z
    · subst hxz
      simp [b2jAdd, b2jGet, fun h => hxy h]
    · by_cases hyz : y = z
      · subst hyz
        simp [b2jAdd, b2jGet, hxz]
      · simp [b2jAdd, b2jGet, hxz, hyz, ih]

/-- The map built by b2jBuild holds exactly the positions. -/
theorem b2jGet_b2jBuild (x : α) :
    ∀ (lst : List α) (j0 : Nat) (acc : List (α × List Nat)),
      b2jGet (b2jBuild lst j0 acc) x = b2jGet acc x ++ posFrom x lst j0 := by
  intro lst
  induction lst with
  | nil =>
    intro j0 acc
    simp [b2jBuild, posFrom]
  | cons c rest ih =>
    intro j0 acc
    simp only [b2jBuild, posFrom]
    rw [ih (j0 + 1) (b2jAdd acc c j0)]
    by_cases hcx : c = x
    · subst hcx
      rw [b2jGet_b2jAdd_same, if_pos rfl]
      simp
    · rw [b2jGet_b2jAdd_ne acc c x j0 (fun h => hcx h.symm), if_neg hcx]
      simp

/-- Every position of x appears in posFrom. -/
theorem posFrom_mem_self (x : α) :
    ∀ (lst : List α) (j0 i : Nat), lst.get? i = some x →
      (j0 + i) ∈ posFrom x lst j0 := by
  intro lst
  induction lst with
  | nil =>
    intro j0 i h
    simp at h
  | cons c rest ih =>
    intro j0 i h
    cases i with
    | zero =>
      have hc : c = x := by simpa using h
      simp [posFrom, hc]
    | succ i2 =>
      have h2 := ih (j0 + 1) i2 (by simpa using h)
      simp only [posFrom]
      refine List.mem_append.mpr (Or.inr ?_)
      rwa [show j0 + (i2 + 1) = j0 + 1 + i2 by omega]

/-- posFrom is strictly ascending and bounded below by the base. -/
theorem posFrom_sorted (x : α) :
    ∀ (lst : List α) (j0 : Nat),
      (posFrom x lst j0).Sorted (· < ·) ∧
      ∀ j ∈ posFrom x lst j0, j0 ≤ j := by
  intro lst
  induction lst with
  | nil =>
    intro j0
    exact ⟨List.sorted_nil, by simp [posFrom]⟩
  | cons c rest ih =>
    intro j0
    obtain ⟨ihs, ihb⟩ := ih (j0 + 1)
    by_cases hcx : c = x
    · constructor
      · simp only [posFrom, if_pos hcx, List.singleton_append]
        exact List.sorted_cons.mpr
          ⟨fun y hy => by have := ihb y hy; omega, ihs⟩
      · intro j hj
        simp only [posFrom, if_pos hcx, List.singleton_append] at hj
        rcases List.mem_cons.mp hj with h1 | h2
        · omega
        · have := ihb j h2
          omega
    · constructor
      · simpa [posFrom, if_neg hcx] using ihs
      · intro j hj
        simp only [posFrom, if_neg hcx, List.nil_append] at hj
        have := ihb j hj
        omega

/-- Keys after b2jAdd. -/
theorem b2jAdd_keys (acc : List (α × List Nat)) (x : α) (j : Nat) :
    (b2jAdd acc x j).map Prod.fst =
      if x ∈ acc.map Prod.fst then acc.map Prod.fst
      else acc.map Prod.fst ++ [x] := by
  induction acc with
  | nil => simp [b2jAdd]
  | cons hd rest ih =>
    rcases hd with ⟨z, zs⟩
    by_cases hxz : x = z
    · subst hxz
      simp [b2jAdd]
    · simp only [b2jAdd, if_neg hxz, List.map_cons, ih, List.mem_cons]
      by_cases hmem : x ∈ rest.map Prod.fst
      · simp [hmem, hxz]
      · simp [hmem, hxz]

/-- b2jAdd keeps the keys duplicate-free. -/
theorem b2jAdd_keys_nodup (acc : List (α × List Nat)) (x : α) (j : Nat)
    (h : (acc.map Prod.fst).Nodup) :
    ((b2jAdd acc x j).map Prod.fst).Nodup := by
  rw [b2jAdd_keys]
  split
  · exact h
  · rename_i hmem
    rw [List.nodup_append]
    exact ⟨h, List.nodup_singleton x,
      fun y hy hy2 => hmem (by rwa [← List.mem_singleton.mp hy2])⟩

/-- b2jBuild keeps the keys duplicate-free. -/
theorem b2jBuild_keys_nodup :
    ∀ (lst : List α) (j0 : Nat) (acc : List (α × List Nat)),
      (acc.map Prod.fst).Nodup →
      ((b2jBuild lst j0 acc).map Prod.fst).Nodup := by
  intro lst
  induction lst with
  | nil =>
    intro j0 acc h
    exact h
  | cons c rest ih =>
    intro j0 acc h
    exact ih (j0 + 1) (b2jAdd acc c j0) (b2jAdd_keys_nodup acc c j0 h)

/-- With duplicate-free keys, membership determines the get. -/
theorem b2jGet_of_mem_nodup (m : List (α × List Nat))
    (hnd : (m.map Prod.fst).Nodup) (x : α) (js : List Nat)
    (hmem : (x, js) ∈ m) : b2jGet m x = js := by
  induction m with
  | nil => simp at hmem
  | cons hd rest ih =>
    rcases hd with ⟨z, zs⟩
    simp only [List.map_cons, List.nodup_cons] at hnd
    obtain ⟨hz, hndr⟩ := hnd
    simp only [b2jGet]
    rcases List.mem_cons.mp hmem with h1 | h2
    · rw [Prod.mk.injEq] at h1
      obtain ⟨rfl, rfl⟩ := h1
      rw [if_pos rfl]
    · by_cases hxz : x = z
      · subst hxz
        exact absurd (List.mem_map_of_mem Prod.fst h2) hz
      · rw [if_neg hxz]
        exact ih hndr h2

/-- The candidate list of the autojunked map is sorted, and when it is
nonempty it is complete: it holds every position of its element. -/
theorem b2jGet_b2j_pack (lst : List α) (x : α) :
    (b2jGet (b2j lst) x).Sorted (· < ·) ∧
    (b2jGet (b2j lst) x ≠ [] →
      ∀ i, lst.get? i = some x → i ∈ b2jGet (b2j lst) x) := by
  have hchar : b2jGet (b2jBuild lst 0 []) x = posFrom x lst 0 := by
    rw [b2jGet_b2jBuild]
    rfl
  have hdich : b2jGet (b2j lst) x = [] ∨
      b2jGet (b2j lst) x = posFrom x lst 0 := by
    by_cases hnil : b2jGet (b2j lst) x = []
    · exact Or.inl hnil
    · right
      obtain ⟨j, hj⟩ := List.exists_mem_of_ne_nil _ hnil
      obtain ⟨js, hmem, _⟩ := b2jGet_mem (b2j lst) x j hj
      have hmem2 : (x, js) ∈ b2jBuild lst 0 [] := b2j_sub lst (x, js) hmem
      have hnd : ((b2jBuild lst 0 []).map Prod.fst).Nodup :=
        b2jBuild_keys_nodup lst 0 [] (by simp)
      have h1 : b2jGet (b2jBuild lst 0 []) x = js :=
        b2jGet_of_mem_nodup _ hnd x js hmem2
      have hndf : ((b2j lst).map Prod.fst).Nodup := by
        simp only [b2j]
        split
        · exact ((List.filter_sublist _).map Prod.fst).nodup hnd
        · exact hnd
      have h2 : b2jGet (b2j lst) x = js :=
        b2jGet_of_mem_nodup _ hndf x js hmem
      rw [h2, ← h1]
      exact hchar
  constructor
  · rcases hdich with h | h
    · rw [h]
      exact List.sorted_nil
    · rw [h]
      exact (posFrom_sorted x lst 0).1
  · intro hne i hi
    rcases hdich with h | h
    · exact absurd h hne
    · rw [h]
      have := posFrom_mem_self x lst 0 i hi
      rwa [Nat.zero_add] at this

end SequenceMatcherDiag3

section SequenceMatcherDiag4

variable {α : Type} [DecidableEq α]

/-- diagRun vanishes below the range start. -/
theorem diagRun_of_lt (l : List α) (alo r : Nat) (h : r < alo) :
    diagRun l alo r = 0 := by
  cases r with
  | zero =>
    simp only [diagRun]
    rw [if_neg]
    rintro ⟨h1, _⟩
    omega
  | succ r2 =>
    simp only [diagRun]
    rw [if_pos (Or.inl h)]

/-- The outer row loop of the self-comparison keeps the best block
diagonal, in range, and dominating all diagonal runs. -/
theorem flmOuter_diag (l : List α) (alo ahi : Nat)
    (hlen : ahi ≤ l.length) :
    ∀ (cnt i0 : Nat) (f : Nat → Nat) (best : Nat × Nat × Nat),
      alo ≤ i0 → i0 + cnt = ahi →
      rowInvD l alo ahi (i0 - 1) f →
      (1 ≤ i0 → f (i0 - 1) = diagRun l alo (i0 - 1)) →
      (i0 = 0 → ∀ j, f j = 0) →
      bestD alo ahi best →
      maxUpTo l alo i0 best →
      bestD alo ahi
        (flmOuter l (b2j l) alo ahi (List.range' i0 cnt) f best) ∧
      maxUpTo l alo ahi
        (flmOuter l (b2j l) alo ahi (List.range' i0 cnt) f best) := by
  intro cnt
  induction cnt with
  | zero =>
    intro i0 f best hi0 hcnt _ _ _ hbestD hmax
    have : i0 = ahi := by omega
    subst this
    exact ⟨hbestD, hmax⟩
  | succ cnt ih =>
    intro i0 f best hi0 hcnt hf hpd hzm hbestD hmax
    rw [List.range'_succ]
    simp only [flmOuter]
    cases hx : l.get? i0 with
    | none =>
      exfalso
      have := List.get?_eq_none.mp hx
      omega
    | some x =>
      dsimp only
      by_cases hjs : b2jGet (b2j l) x = []
      · rw [hjs]
        refine ih (i0 + 1) (fun _ => 0) best (by omega) (by omega)
          (fun j hj => absurd hj (by simp)) ?_
          (fun h => absurd h (by omega)) hbestD ?_
        · intro _
          have hpres0 : ¬ presB l i0 = true := by
            unfold presB
            rw [hx]
            simp [hjs]
          simp only [Nat.add_sub_cancel]
          rw [diagRun_zero l alo i0 hpres0]
        · intro r h1 h2
          by_cases hr : r < i0
          · exact hmax r h1 hr
          · have hri : r = i0 := by omega
            subst hri
            have hpres0 : ¬ presB l r = true := by
              unfold presB
              rw [hx]
              simp [hjs]
            rw [diagRun_zero l alo r hpres0]
            exact Nat.zero_le _
      · obtain ⟨hsorted, hcomplete⟩ := b2jGet_b2j_pack l x
        have hrun := flmInner_diag l alo ahi x i0 hi0 (by omega) hx hjs
          f hf hpd hzm (b2jGet (b2j l) x) (fun _ => 0) best
          hsorted (fun j hj => hj)
          (fun j hj => absurd hj (by simp)) hbestD hmax
          (Or.inl ⟨hcomplete hjs i0 hx, rfl⟩)
        obtain ⟨hr1, hr2, hr3, hr4, hr5⟩ := hrun
        refine ih (i0 + 1)
          (flmInner f i0 alo ahi (b2jGet (b2j l) x) (fun _ => 0) best).1
          (flmInner f i0 alo ahi (b2jGet (b2j l) x) (fun _ => 0) best).2
          (by omega) (by omega) hr1 (fun _ => hr4)
          (fun h => absurd h (by omega)) hr2 ?_
        intro r h1 h2
        by_cases hr : r < i0
        · exact hr3 r h1 hr
        · have hri : r = i0 := by omega
          subst hri
          exact hr5

/-- The leftward extension drains fully on the diagonal of a
self-comparison. -/
theorem extLeft_diag (l : List α) (alo : Nat) :
    ∀ (bi bs : Nat), alo ≤ bi → bi + bs ≤ l.length →
      extLeft l l alo alo bi bi bs = (alo, alo, bs + (bi - alo)) := by
  intro bi
  induction bi with
  | zero =>
    intro bs h1 h2
    have h0 : alo = 0 := by omega
    subst h0
    simp [extLeft]
  | succ bi ih =>
    intro bs h1 h2
    simp only [extLeft, Nat.add_sub_cancel]
    by_cases hgt : bi + 1 > alo
    · rw [if_pos ⟨hgt, hgt⟩]
      have hlt : bi < l.length := by omega
      rw [List.get?_eq_get hlt]
      dsimp only
      rw [if_pos rfl]
      rw [ih (bs + 1) (by omega) (by omega),
        show bs + 1 + (bi - alo) = bs + (bi + 1 - alo) by omega]
    · rw [if_neg (fun hc => hgt hc.1)]
      have h0 : alo = bi + 1 := by omega
      subst h0
      simp

/-- The rightward extension drains fully on the diagonal of a
self-comparison. -/
theorem extRight_diag (l : List α) (alo ahi : Nat)
    (hlen : ahi ≤ l.length) :
    ∀ (fuel bs : Nat), alo + bs ≤ ahi → ahi - alo - bs ≤ fuel →
      extRight l l ahi ahi alo alo fuel bs = ahi - alo := by
  intro fuel
  induction fuel with
  | zero =>
    intro bs h1 h2
    simp only [extRight]
    omega
  | succ fuel ih =>
    intro bs h1 h2
    simp only [extRight]
    by_cases hlt : alo + bs < ahi
    · rw [if_pos ⟨hlt, hlt⟩]
      have hl2 : alo + bs < l.length := by omega
      rw [List.get?_eq_get hl2]
      dsimp only
      rw [if_pos rfl]
      exact ih (bs + 1) (by omega) (by omega)
    · rw [if_neg (fun hc => hlt hc.1)]
      omega

/-- find_longest_match of a list against itself on an equal range pair
returns the full diagonal block. -/
theorem find_longest_match_diag (l : List α) (alo ahi : Nat)
    (halo : alo ≤ ahi) (hlen : ahi ≤ l.length) :
    find_longest_match l l (b2j l) alo ahi alo ahi
      = (alo, alo, ahi - alo) := by
  have houter := flmOuter_diag l alo ahi hlen (ahi - alo) alo
    (fun _ => 0) (alo, alo, 0) (le_refl _) (by omega)
    (fun j hj => absurd hj (by simp))
    (fun h1 => by rw [diagRun_of_lt l alo (alo - 1) (by omega)])
    (fun _ _ => rfl) ⟨rfl, le_refl _, by dsimp only; omega⟩
    (fun r h1 h2 => absurd h2 (by omega))
  rcases hB : flmOuter l (b2j l) alo ahi (List.range' alo (ahi - alo))
    (fun _ => 0) (alo, alo, 0) with ⟨p1, p2, p3⟩
  rw [hB] at houter
  obtain ⟨⟨hd1, hd2, hd3⟩, _⟩ := houter
  dsimp only at hd1 hd2 hd3
  subst hd1
  unfold find_longest_match
  rw [hB]
  simp only []
  rw [extLeft_diag l alo p1 p3 hd2 (by omega)]
  simp only []
  rw [extRight_diag l alo ahi hlen ahi (p3 + (p1 - alo)) (by omega)
    (by omega)]

end SequenceMatcherDiag4

section SequenceMatcherDiag5

variable {α : Type} [DecidableEq α]

/-- The matching blocks of a list against itself: the full diagonal
plus the terminal block. -/
theorem get_matching_blocks_self (l : List α) :
    get_matching_blocks l l =
      (if l.length = 0 then [] else [(0, 0, l.length)]) ++
        [(l.length, l.length, 0)] := by
  have hflm := find_longest_match_diag l 0 l.length (Nat.zero_le _)
    (le_refl _)
  rw [Nat.sub_zero] at hflm
  have hblocks : matchingBlocksGo l l (b2j l) (l.length + l.length + 1)
      0 l.length 0 l.length
      = if l.length = 0 then [] else [(0, 0, l.length)] := by
    simp only [matchingBlocksGo, hflm]
    by_cases h0 : l.length = 0
    · rw [if_pos h0, if_pos h0]
    · rw [if_neg h0, if_neg h0,
        if_neg (by omega : ¬ ((0 : Nat) < 0 ∧ (0 : Nat) < 0)),
        if_neg (by omega :
          ¬ (0 + l.length < l.length ∧ 0 + l.length < l.length))]
      simp
  simp only [get_matching_blocks]
  rw [hblocks]
  by_cases h0 : l.length = 0
  · rw [if_pos h0]
    simp [mergeAdjacentBlocks, List.insertionSort]
  · rw [if_neg h0]
    simp only [List.insertionSort, List.orderedInsert]
    simp only [mergeAdjacentBlocks]
    rw [if_pos (⟨trivial, trivial⟩ : True ∧ True)]
    simp only [Nat.zero_add]
    rw [if_pos h0]

/-- The opcodes of a list against itself: one equal opcode, or none
for the empty list. -/
theorem get_opcodes_self (l : List α) :
    get_opcodes l l = if l.length = 0 then []
      else [(Tag.equal, 0, l.length, 0, l.length)] := by
  unfold get_opcodes
  rw [get_matching_blocks_self]
  by_cases h0 : l.length = 0
  · rw [if_pos h0, if_pos h0, h0]
    simp [opcodesGo]
  · rw [if_neg h0, if_neg h0]
    simp only [List.cons_append, List.nil_append, opcodesGo]
    rw [if_neg (by omega : ¬ ((0 : Nat) < 0 ∧ (0 : Nat) < 0))]
    rw [if_neg (by omega : ¬ (0 : Nat) < 0)]
    rw [if_neg (by omega : ¬ (0 : Nat) < 0)]
    rw [if_pos h0]
    simp only [Nat.zero_add, Nat.add_zero]
    rw [if_neg (by omega : ¬ (l.length < l.length ∧ l.length < l.length))]
    rw [if_neg (by omega : ¬ l.length < l.length)]
    rw [if_neg (by omega : ¬ l.length < l.length)]
    rw [if_neg (show ¬ ((0 : Nat) ≠ 0) from fun hc => hc rfl)]
    simp

/-- The grouped opcodes of a list against itself are empty. -/
theorem get_grouped_opcodes_self (l : List α) :
    get_grouped_opcodes l l 3 = [] := by
  by_cases h0 : l.length = 0
  · have hops : get_opcodes l l = [] := by
      rw [get_opcodes_self, if_pos h0]
    simp only [get_grouped_opcodes, hops]
    rw [if_pos trivial]
    rfl
  · have hops : get_opcodes l l = [(Tag.equal, 0, l.length, 0, l.length)] := by
      rw [get_opcodes_self, if_neg h0]
    simp only [get_grouped_opcodes, hops]
    rw [if_neg (fun hc => List.noConfusion hc)]
    simp only [trimFirstEqual, trimLastEqual, List.reverse_singleton]
    simp only [groupedGo]
    rw [if_neg (fun hc => absurd hc.2 (by omega))]
    simp only [List.nil_append]

/-- The unified diff is empty exactly for equal line lists. -/
theorem unified_diff_nil_iff (a b : List String) :
    unified_diff a b = [] ↔ a = b := by
  constructor
  · intro h
    apply get_grouped_opcodes_nil_imp_eq a b
    unfold unified_diff at h
    rcases hg : get_grouped_opcodes a b 3 with _ | ⟨g, gs⟩
    · rfl
    · rw [hg] at h
      exact absurd h (List.cons_ne_nil _ _)
  · intro h
    subst h
    unfold unified_diff
    rw [get_grouped_opcodes_self]

end SequenceMatcherDiag5

/-- C2 counterexample: a comment-only change.  update_snapshot stores
the raw unified diff, which is non-None even though the display diff
(the normalized view the claim appeals to) is empty. -/
theorem update_snapshot_C2_counterexample :
    (update_snapshot "P" "//b"
      [("P", { page_name := "P", content := "//a", timestamp := some "t0" })]
      (some "t1")).diff ≠ none ∧
    get_display_diff (update_snapshot "P" "//b"
      [("P", { page_name := "P", content := "//a", timestamp := some "t0" })]
      (some "t1")).diff true = none :=
  ⟨by decide, by decide⟩

/-- C2: amended claim.  The stored diff of update_snapshot is None
exactly when there is no prior snapshot, its content is empty (falsy),
or the previous and current contents split into the same lines - not
when the normalized display diff is empty. -/
theorem update_snapshot_C2_amended (page_name current_content : String)
    (snapshots : List (String × PageSnapshot))
    (timestamp : Option String) :
    (update_snapshot page_name current_content snapshots timestamp).diff
        = none ↔
      (snapshots.lookup page_name = none ∨
        ∃ s, snapshots.lookup page_name = some s ∧
          (s.content = "" ∨
            pySplitlines s.content = pySplitlines current_content)) := by
  have hdiff : (update_snapshot page_name current_content snapshots
      timestamp).diff =
      match (snapshots.lookup page_name).map (fun s => s.content) with
      | none => none
      | some p =>
        if p = "" then none else get_raw_diff (some p) current_content :=
    rfl
  rw [hdiff]
  cases hL : snapshots.lookup page_name with
  | none => simp
  | some s =>
    simp only [Option.map_some']
    by_cases hempty : s.content = ""
    · rw [if_pos hempty]
      constructor
      · intro _
        exact Or.inr ⟨s, rfl, Or.inl hempty⟩
      · intro _
        rfl
    · rw [if_neg hempty]
      have hraw : get_raw_diff (some s.content) current_content =
          (if unified_diff (pySplitlines s.content)
              (pySplitlines current_content) = [] then none
            else some (pyJoin "\n" (unified_diff (pySplitlines s.content)
              (pySplitlines current_content)))) := by
        simp only [get_raw_diff]
        rw [if_neg hempty]
      rw [hraw]
      by_cases hud : unified_diff (pySplitlines s.content)
          (pySplitlines current_content) = []
      · rw [if_pos hud]
        constructor
        · intro _
          exact Or.inr ⟨s, rfl, Or.inr ((unified_diff_nil_iff _ _).mp hud)⟩
        · intro _
          rfl
      · rw [if_neg hud]
        constructor
        · intro hc
          exact absurd hc (Option.some_ne_none _)
        · intro hr
          exfalso
          rcases hr with h1 | ⟨s2, h2, h3⟩
          · exact Option.noConfusion h1
          · have hs2 : s = s2 := Option.some.inj h2
            rcases h3 with h4 | h4
            · rw [hs2] at hempty
              exact hempty h4
            · rw [hs2] at hud
              exact hud ((unified_diff_nil_iff _ _).mpr h4)
